import Mathlib

/-!
# find-git-repositories: a shallow embedding of `cpp/src/FindGitRepos.cpp`

The file embeds the native module of the repository:

* `FindGitReposWorker` with its constructor, `ThrottledProgressCallback`, the
  delivery lambda and `OnOK`;
* the two `Execute` bodies (`Posix.Execute` for the `#else` branch,
  `Win32.Execute` for the `_WIN32` branch);
* the entry point `FindGitRepos` with its argument validation.

Conventions of the embedding.

* `std::string` and `std::wstring` are Lean `String`s.
* The operating system is an explicit argument: a record of functions that
  answer the calls the code makes (`uv_fs_scandir`, `uv_fs_lstat`,
  `FindFirstFileW`/`FindNextFileW`).  A failing call answers `none`.
* `std::chrono::steady_clock` time points are integers counting clock ticks
  (nanoseconds); the reading taken by a call is an explicit argument.
* The outer `while (foundPaths.size())` loops carry a fuel argument: one unit
  per directory popped from the worklist.  Running out of fuel is `none`.
* The scanning thread and the JavaScript thread are interleaved by an explicit
  list of events (`Event`), each one atomic access to the shared objects.
* `includes/Queue.h` and `includes/WindowsHelpers.h` are not among the sources:
  the queue is a first-in first-out list, as the specification describes it, and
  the Windows helpers are parameters of the Windows body.

Layout: the definitions translated from the source come first; then the vocabulary
of the properties (the configuration errors, finite directory trees and what it
means for a file system to answer as a tree does) and the examples; then the
theorems, the ones named `C1` to `C10` being the properties of the specification.
-/

namespace FindGitRepositories

/-! ## The progress queue and the worker object -/

/-- Modelled from the spec: `RepositoryQueue` is declared in `includes/Queue.h`,
which is not among the sources.  The spec (sections 3 and 4.2) describes it as a
thread-safe first-in first-out buffer of Match paths; the code uses its
`enqueue`, `dequeue` and `count` members. -/
structure RepositoryQueue where
  items : List String
deriving DecidableEq, Repr

/-- Modelled from the spec: `enqueue` appends a path at the back. -/
def RepositoryQueue.enqueue (q : RepositoryQueue) (p : String) : RepositoryQueue :=
  ⟨q.items ++ [p]⟩

/-- Modelled from the spec: `count` is the number of queued paths. -/
def RepositoryQueue.count (q : RepositoryQueue) : Nat :=
  q.items.length

/-- Modelled from the spec: `dequeue` removes the path at the front; `none` on an
empty queue (the code never dequeues more than it counted). -/
def RepositoryQueue.dequeue (q : RepositoryQueue) : Option (String × RepositoryQueue) :=
  match q.items with
  | [] => none
  | x :: xs => some (x, ⟨xs⟩)

/-- Clock ticks (nanoseconds) in `ms` milliseconds: the conversion C++ applies when a
`steady_clock` duration is compared with, or offset by, `std::chrono::milliseconds`. -/
def msToTicks (ms : Nat) : Int :=
  (ms : Int) * 1000000

/-- The data members of `FindGitReposWorker` (lines 227-234).  `progressCallback`
stands for the `Napi::ThreadSafeFunction`: the number of `NonBlockingCall`
requests issued and not yet started on the JavaScript thread. -/
structure FindGitReposWorker where
  path : String
  progressQueue : RepositoryQueue
  progressCallback : Nat
  throttleTimeoutMS : Nat
  lastProgressCallbackTimePoint : Int
  repositories : List String
deriving DecidableEq, Repr

/-- The constructor (lines 14-30); `now` is the reading of `steady_clock::now()`
at line 27. -/
def FindGitReposWorker.new (_path : String) (_progressQueue : RepositoryQueue)
    (_throttleTimeoutMS : Nat) (now : Int) : FindGitReposWorker :=
  { path := _path
    progressQueue := _progressQueue
    progressCallback := 0
    throttleTimeoutMS := _throttleTimeoutMS
    lastProgressCallbackTimePoint := now - msToTicks _throttleTimeoutMS
    repositories := [] }

/-- The call `progressCallback.NonBlockingCall(progressQueue.get(), callback)`: one
more delivery is scheduled on the JavaScript thread. -/
def FindGitReposWorker.NonBlockingCall (w : FindGitReposWorker) : FindGitReposWorker :=
  { w with progressCallback := w.progressCallback + 1 }

/-- The method `ThrottledProgressCallback` (lines 213-225); `now` is the reading that
`steady_clock::now()` gives at line 218 (not read when the interval is 0). -/
def FindGitReposWorker.ThrottledProgressCallback (now : Int) (w : FindGitReposWorker) :
    FindGitReposWorker :=
  if w.throttleTimeoutMS = 0 then
    w.NonBlockingCall
  else if now - w.lastProgressCallbackTimePoint < msToTicks w.throttleTimeoutMS then
    w
  else
    { w.NonBlockingCall with lastProgressCallbackTimePoint := now }

/-- The method `OnOK` (lines 182-191): the promise is resolved with a copy of `repositories`;
no member of the worker is changed. -/
def FindGitReposWorker.OnOK (w : FindGitReposWorker) : List String :=
  (List.range w.repositories.length).map (fun i => w.repositories.getD i "")

/-- The three statements the scanner runs for a match (POSIX lines 170-172,
Windows lines 85-87 and 115-117): enqueue, `push_back`, throttle check.
`clock k` is the reading of the steady clock during the throttle check of the
`k`-th match. -/
def FindGitReposWorker.recordMatch (clock : Nat → Int) (w : FindGitReposWorker)
    (repoPath : String) : FindGitReposWorker :=
  let w1 := { w with progressQueue := w.progressQueue.enqueue repoPath }
  let w2 := { w1 with repositories := w1.repositories ++ [repoPath] }
  w2.ThrottledProgressCallback (clock w2.repositories.length)

/-! ## The POSIX traversal -/

namespace Posix

/-- The `uv_dirent_type_t` values of libuv. -/
inductive uv_dirent_type_t where
  | UV_DIRENT_UNKNOWN
  | UV_DIRENT_FILE
  | UV_DIRENT_DIR
  | UV_DIRENT_LINK
  | UV_DIRENT_FIFO
  | UV_DIRENT_SOCKET
  | UV_DIRENT_CHAR
  | UV_DIRENT_BLOCK
deriving DecidableEq, Repr

export uv_dirent_type_t (UV_DIRENT_UNKNOWN UV_DIRENT_FILE UV_DIRENT_DIR UV_DIRENT_LINK)

/-- The `uv_dirent_t` record of libuv. -/
structure uv_dirent_t where
  name : String
  type : uv_dirent_type_t
deriving DecidableEq, Repr

/-- The file-type bits of `st_mode`. -/
def S_IFMT : Nat := 0o170000

/-- Directory. -/
def S_IFDIR : Nat := 0o040000

/-- Symbolic link. -/
def S_IFLNK : Nat := 0o120000

/-- Regular file. -/
def S_IFREG : Nat := 0o100000

/-- The `S_ISDIR` test of `sys/stat.h`. -/
def S_ISDIR (st_mode : Nat) : Bool :=
  st_mode &&& S_IFMT == S_IFDIR

/-- The `S_ISLNK` test of `sys/stat.h`. -/
def S_ISLNK (st_mode : Nat) : Bool :=
  st_mode &&& S_IFMT == S_IFLNK

/-- The answers of the operating system to the two libuv calls of `Execute`:
`uv_fs_scandir` on a path gives the entries that `uv_fs_scandir_next` then
returns one by one (libuv leaves out `.` and `..`), or fails; `uv_fs_lstat` gives
`statbuf.st_mode`, or fails. -/
structure FileSystem where
  uv_fs_scandir : String → Option (List uv_dirent_t)
  uv_fs_lstat : String → Option Nat

/-- The inner loop (lines 148-173) over the entries of `currentPath`, threading the
locals `temp`, `isGitRepo` and the worker. -/
def scandirNext (fs : FileSystem) (clock : Nat → Int) (currentPath : String) :
    List uv_dirent_t → List String → Bool → FindGitReposWorker →
      List String × Bool × FindGitReposWorker
  | [], temp, isGitRepo, w => (temp, isGitRepo, w)
  | directoryEntry :: more, temp, isGitRepo, w =>
    let nextPath := currentPath ++ "/" ++ directoryEntry.name
    let skip : Bool :=
      if directoryEntry.type = UV_DIRENT_UNKNOWN then
        match fs.uv_fs_lstat nextPath with
        | none => true
        | some st_mode => !S_ISDIR st_mode || S_ISLNK st_mode
      else
        decide (directoryEntry.type ≠ UV_DIRENT_DIR)
    if skip then
      scandirNext fs clock currentPath more temp isGitRepo w
    else if directoryEntry.name ≠ ".git" then
      scandirNext fs clock currentPath more (temp ++ [nextPath]) isGitRepo w
    else
      scandirNext fs clock currentPath more temp true (w.recordMatch clock nextPath)

/-- The outer loop (lines 138-178) on the worklist `foundPaths`. -/
def executeLoop (fs : FileSystem) (clock : Nat → Int) :
    Nat → List String → FindGitReposWorker → Option FindGitReposWorker
  | _, [], w => some w
  | 0, _ :: _, _ => none
  | fuel + 1, currentPath :: foundPaths, w =>
    match fs.uv_fs_scandir (currentPath ++ "/") with
    | none => executeLoop fs clock fuel foundPaths w
    | some entries =>
      match scandirNext fs clock currentPath entries [] false w with
      | (temp, isGitRepo, w1) =>
        if !isGitRepo then
          executeLoop fs clock fuel (foundPaths ++ temp) w1
        else
          executeLoop fs clock fuel foundPaths w1

/-- The method `FindGitReposWorker::Execute`, POSIX body (lines 132-179). -/
def Execute (fs : FileSystem) (clock : Nat → Int) (fuel : Nat) (w : FindGitReposWorker) :
    Option FindGitReposWorker :=
  executeLoop fs clock fuel [w.path] w

/-- A file system given by two finite tables. -/
def FileSystem.ofTables (dirs : List (String × List uv_dirent_t))
    (stats : List (String × Nat)) : FileSystem :=
  { uv_fs_scandir := fun p => dirs.lookup p
    uv_fs_lstat := fun p => stats.lookup p }

end Posix

/-! ## The Windows traversal -/

namespace Win32

/-- The two members of `WIN32_FIND_DATAW` that `Execute` reads. -/
structure WIN32_FIND_DATAW where
  dwFileAttributes : Nat
  cFileName : String
deriving DecidableEq, Repr

/-- The `FILE_ATTRIBUTE_DIRECTORY` bit of `winnt.h`. -/
def FILE_ATTRIBUTE_DIRECTORY : Nat := 0x10

/-- The `FILE_ATTRIBUTE_REPARSE_POINT` bit of `winnt.h`: set on symbolic links and
junctions. -/
def FILE_ATTRIBUTE_REPARSE_POINT : Nat := 0x400

/-- The answers of the operating system: `FindFirstFileW` on a wildcard path gives
`none` for `INVALID_HANDLE_VALUE`, otherwise the first entry together with the
entries that `FindNextFileW` returns afterwards. -/
structure FileSystem where
  FindFirstFileW : String → Option (WIN32_FIND_DATAW × List WIN32_FIND_DATAW)

/-- The functions of `includes/WindowsHelpers.h`, which is not among the sources:
they are parameters of the traversal.  `convertWideCharToMultiByte` answers `none`
when its `success` result is 0. -/
structure WindowsHelpers where
  convertMultiByteToWideChar : String → String
  isNtPath : String → Bool
  prefixWithNtPath : String → String
  convertWideCharToMultiByte : String → Bool → Option String

/-- Lines 46-48: `while (!rootPath.empty() && rootPath.back() == L'\\') rootPath.pop_back();` -/
def popTrailingBackslashes (rootPath : String) : String :=
  ⟨rootPath.data.rdropWhile (fun c => c == '\\')⟩

/-- The test of lines 71 and 101 on `dwFileAttributes`. -/
def isDirectory (FindFileData : WIN32_FIND_DATAW) : Bool :=
  FindFileData.dwFileAttributes &&& FILE_ATTRIBUTE_DIRECTORY == FILE_ATTRIBUTE_DIRECTORY

/-- The loop of lines 96-122 over the entries `FindNextFileW` returns; the result
is `tempPaths`, `isGitRepo` and the worker when the loop is left. -/
def findNextFile (h : WindowsHelpers) (clock : Nat → Int) (wasNtPath : Bool)
    (currentPath : String) :
    List WIN32_FIND_DATAW → List String → FindGitReposWorker →
      List String × Bool × FindGitReposWorker
  | [], tempPaths, w => (tempPaths, false, w)
  | FindFileData :: more, tempPaths, w =>
    if FindFileData.cFileName = "." ∨ FindFileData.cFileName = ".." then
      findNextFile h clock wasNtPath currentPath more tempPaths w
    else if !isDirectory FindFileData then
      findNextFile h clock wasNtPath currentPath more tempPaths w
    else if FindFileData.cFileName = ".git" then
      match h.convertWideCharToMultiByte currentPath wasNtPath with
      | none => (tempPaths, true, w)
      | some repoPath => (tempPaths, true, w.recordMatch clock (repoPath ++ "\\.git"))
    else
      findNextFile h clock wasNtPath currentPath more
        (tempPaths ++ [currentPath ++ "\\" ++ FindFileData.cFileName]) w

/-- The outer loop (lines 57-129) on the worklist `foundPaths`. -/
def executeLoop (h : WindowsHelpers) (fs : FileSystem) (clock : Nat → Int) (wasNtPath : Bool) :
    Nat → List String → FindGitReposWorker → Option FindGitReposWorker
  | _, [], w => some w
  | 0, _ :: _, _ => none
  | fuel + 1, currentPath :: foundPaths, w =>
    match fs.FindFirstFileW (currentPath ++ "\\*") with
    | none => executeLoop h fs clock wasNtPath fuel foundPaths w
    | some (FindFileData, more) =>
      if isDirectory FindFileData ∧ "." ≠ FindFileData.cFileName
          ∧ ".." ≠ FindFileData.cFileName ∧ ".git" = FindFileData.cFileName then
        match h.convertWideCharToMultiByte currentPath wasNtPath with
        | none => executeLoop h fs clock wasNtPath fuel foundPaths w
        | some repoPath =>
          executeLoop h fs clock wasNtPath fuel foundPaths
            (w.recordMatch clock (repoPath ++ "\\.git"))
      else
        let tempPaths : List String :=
          if isDirectory FindFileData ∧ "." ≠ FindFileData.cFileName
              ∧ ".." ≠ FindFileData.cFileName then
            [currentPath ++ "\\" ++ FindFileData.cFileName]
          else []
        match findNextFile h clock wasNtPath currentPath more tempPaths w with
        | (tempPaths1, isGitRepo, w1) =>
          if !isGitRepo then
            executeLoop h fs clock wasNtPath fuel (foundPaths ++ tempPaths1) w1
          else
            executeLoop h fs clock wasNtPath fuel foundPaths w1

/-- The method `FindGitReposWorker::Execute`, Windows body (lines 37-130). -/
def Execute (h : WindowsHelpers) (fs : FileSystem) (clock : Nat → Int) (fuel : Nat)
    (w : FindGitReposWorker) : Option FindGitReposWorker :=
  let rootPath := h.convertMultiByteToWideChar w.path
  let wasNtPath := h.isNtPath rootPath
  if !wasNtPath then
    let rootPath1 := popTrailingBackslashes rootPath
    if rootPath1 = "" then
      some w
    else
      executeLoop h fs clock wasNtPath fuel [h.prefixWithNtPath rootPath1] w
  else
    executeLoop h fs clock wasNtPath fuel [rootPath] w

/-- A file system given by a finite table of wildcard paths. -/
def FileSystem.ofTable (dirs : List (String × WIN32_FIND_DATAW × List WIN32_FIND_DATAW)) :
    FileSystem :=
  { FindFirstFileW := fun p => dirs.lookup p }

end Win32

/-! ## The entry point -/

/-- A JavaScript number: an IEEE double, with its finite values taken among the
rationals. -/
inductive JsNumber where
  | finite (q : ℚ)
  | nan
  | posInf
  | negInf

/-- The comparison `bounds < 0` of line 271 on doubles: false on `NaN`. -/
def JsNumber.ltZero : JsNumber → Bool
  | .finite q => decide (q < 0)
  | .nan => false
  | .posInf => false
  | .negInf => true

/-- The comparison `bounds > 60000` of line 271 on doubles: false on `NaN`. -/
def JsNumber.gt60000 : JsNumber → Bool
  | .finite q => decide (q > 60000)
  | .nan => false
  | .posInf => true
  | .negInf => false

/-- The conversion `Napi::Number` to `uint32_t` of line 277 (`Uint32Value`): the
number is truncated towards zero and reduced modulo 2^32; a non-finite number
gives 0. -/
def JsNumber.Uint32Value : JsNumber → Nat
  | .finite q => ((Int.tdiv q.num (q.den : Int)) % 4294967296).toNat
  | _ => 0

/-- A JavaScript value as N-API classifies it (`napi_valuetype`); an object or a
function carries its properties. -/
inductive Value where
  | undefined
  | null
  | boolean (b : Bool)
  | number (n : JsNumber)
  | string (s : String)
  | symbol
  | object (properties : List (String × Value))
  | function (properties : List (String × Value))
  | external
  | bigint

/-- The test `Napi::Value::IsString`. -/
def Value.IsString : Value → Bool
  | .string _ => true
  | _ => false

/-- The test `Napi::Value::IsFunction`. -/
def Value.IsFunction : Value → Bool
  | .function _ => true
  | _ => false

/-- The test `Napi::Value::IsObject`: true for `napi_object` and `napi_function`. -/
def Value.IsObject : Value → Bool
  | .object _ => true
  | .function _ => true
  | _ => false

/-- The test `Napi::Value::IsNumber`. -/
def Value.IsNumber : Value → Bool
  | .number _ => true
  | _ => false

/-- The properties of an object value. -/
def Value.properties : Value → List (String × Value)
  | .object ps => ps
  | .function ps => ps
  | _ => []

/-- The call `Napi::Object::Has`. -/
def Value.Has (v : Value) (key : String) : Bool :=
  (v.properties.lookup key).isSome

/-- The call `Napi::Object::operator[]`: the property, or `undefined`. -/
def Value.Get (v : Value) (key : String) : Value :=
  (v.properties.lookup key).getD .undefined

/-- What a call of `FindGitRepos` does: it returns a promise already rejected with
a `TypeError`, or it queues a worker and returns the promise of that worker. -/
inductive Outcome where
  | rejected (message : String)
  | queued (worker : FindGitReposWorker)
deriving DecidableEq, Repr

/-- The entry point `FindGitRepos` (lines 237-295) on the argument list `info`;
`now` is the clock reading in the constructor of the worker. -/
def FindGitRepos (info : List Value) (now : Int) : Outcome :=
  match info with
  | [] => .rejected "Must provide non-empty starting path as first argument."
  | info0 :: rest1 =>
    match info0 with
    | .string root =>
      if root = "" then
        .rejected "Must provide non-empty starting path as first argument."
      else
        match rest1 with
        | [] => .rejected "Must provide progress callback as second argument."
        | info1 :: rest2 =>
          if !info1.IsFunction then
            .rejected "Must provide progress callback as second argument."
          else
            match rest2 with
            | [] => .queued (FindGitReposWorker.new root ⟨[]⟩ 0 now)
            | info2 :: _ =>
              if !info2.IsObject then
                .rejected "Options argument must be an object, if passed."
              else
                let maybeThrottleTimeoutMS := info2.Get "throttleTimeoutMS"
                if info2.Has "throttleTimeoutMS" && !maybeThrottleTimeoutMS.IsNumber then
                  .rejected "options.throttleTimeoutMS must be a number, if passed."
                else
                  match maybeThrottleTimeoutMS with
                  | .number temp =>
                    if temp.ltZero || temp.gt60000 then
                      .rejected "options.throttleTimeoutMS must be > 0 and <= 60000, if passed."
                    else
                      .queued (FindGitReposWorker.new root ⟨[]⟩ temp.Uint32Value now)
                  | _ => .queued (FindGitReposWorker.new root ⟨[]⟩ 0 now)
    | _ => .rejected "Must provide non-empty starting path as first argument."

/-! ## The two threads -/

/-- Where the scanning thread stands inside the three statements it runs for a
match. -/
inductive ScannerState where
  | idle
  | enqueued (repoPath : String)
  | pushed
deriving DecidableEq, Repr

/-- The worker together with the JavaScript side: `callback` is the delivery lambda
in progress (dequeues still to do, array filled so far), `delivered` the batches
passed to `jsCallback.Call` so far, in order. -/
structure System where
  worker : FindGitReposWorker
  scanner : ScannerState
  callback : Option (Nat × List String)
  delivered : List (List String)
deriving DecidableEq, Repr

/-- One atomic access to the shared objects.
* `enqueue p`: the scanner runs `progressQueue->enqueue(p)`;
* `push_back`: the scanner runs `repositories.push_back(p)`;
* `throttle now`: the scanner runs `ThrottledProgressCallback()`, reading `now`;
* `callbackStart`: the JavaScript thread starts a scheduled delivery lambda and
  runs lines 199-204;
* `callbackDequeue`: one pass of the loop of lines 205-208, followed by
  `jsCallback.Call` (line 210) after the last pass. -/
inductive Event where
  | enqueue (repoPath : String)
  | push_back
  | throttle (now : Int)
  | callbackStart
  | callbackDequeue
deriving DecidableEq, Repr

/-- The effect of one event; `none` when the event cannot happen in that state. -/
def System.step (s : System) : Event → Option System
  | .enqueue p =>
    match s.scanner with
    | .idle =>
      some { s with
        worker := { s.worker with progressQueue := s.worker.progressQueue.enqueue p }
        scanner := .enqueued p }
    | _ => none
  | .push_back =>
    match s.scanner with
    | .enqueued p =>
      some { s with
        worker := { s.worker with repositories := s.worker.repositories ++ [p] }
        scanner := .pushed }
    | _ => none
  | .throttle now =>
    match s.scanner with
    | .pushed =>
      some { s with worker := s.worker.ThrottledProgressCallback now, scanner := .idle }
    | _ => none
  | .callbackStart =>
    match s.callback with
    | some _ => none
    | none =>
      if s.worker.progressCallback = 0 then none
      else
        let w := { s.worker with progressCallback := s.worker.progressCallback - 1 }
        let numRepos := w.progressQueue.count
        if numRepos = 0 then some { s with worker := w }
        else some { s with worker := w, callback := some (numRepos, []) }
  | .callbackDequeue =>
    match s.callback with
    | some (remaining + 1, repositoryArray) =>
      match s.worker.progressQueue.dequeue with
      | none => none
      | some (p, q) =>
        let w := { s.worker with progressQueue := q }
        if remaining = 0 then
          some { s with
            worker := w, callback := none
            delivered := s.delivered ++ [repositoryArray ++ [p]] }
        else
          some { s with worker := w, callback := some (remaining, repositoryArray ++ [p]) }
    | _ => none

/-- The effect of a list of events, in order. -/
def System.run (s : System) : List Event → Option System
  | [] => some s
  | e :: es => (s.step e).bind (fun s1 => s1.run es)

/-- The system when `Queue()` has just been called on a new worker. -/
def System.start (w : FindGitReposWorker) : System :=
  { worker := w, scanner := .idle, callback := none, delivered := [] }

/-- The array the delivery lambda in progress has filled so far. -/
def System.inflight (s : System) : List String :=
  match s.callback with
  | some (_, repositoryArray) => repositoryArray
  | none => []

/-- The number of dequeues the delivery lambda in progress still has to do. -/
def System.remaining (s : System) : Nat :=
  match s.callback with
  | some (k, _) => k
  | none => 0

/-- The match the scanner has enqueued and not yet appended to `repositories`. -/
def System.pending (s : System) : List String :=
  match s.scanner with
  | .enqueued p => [p]
  | _ => []

/-- The number of matches enqueued whose throttle check has not run yet. -/
def System.unchecked (s : System) : Nat :=
  match s.scanner with
  | .idle => 0
  | _ => 1

/-- The scan has finished its current match, no delivery lambda is scheduled and
none is running. -/
def System.Quiescent (s : System) : Prop :=
  s.scanner = .idle ∧ s.worker.progressCallback = 0 ∧ s.callback = none

instance (s : System) : Decidable s.Quiescent := by
  unfold System.Quiescent
  infer_instance

/-! ## The configuration errors, as the specification lists them -/

/-- Configuration error (a): the root argument is missing, not a string, or
the empty string. -/
def rootMissing (info : List Value) : Prop :=
  match (info[0]? : Option Value) with
  | some (.string root) => root = ""
  | _ => True

/-- Configuration error (b): the progress callback is missing or not a function. -/
def callbackMissing (info : List Value) : Prop :=
  match (info[1]? : Option Value) with
  | some v => v.IsFunction = false
  | none => True

/-- Configuration error (c): a third argument is present and is not an object. -/
def optionsNotObject (info : List Value) : Prop :=
  match (info[2]? : Option Value) with
  | some v => v.IsObject = false
  | none => False

/-- Configuration error (d): `options.throttleTimeoutMS` is present and not a number. -/
def throttleNotNumber (info : List Value) : Prop :=
  match (info[2]? : Option Value) with
  | some v => v.Has "throttleTimeoutMS" = true ∧ (v.Get "throttleTimeoutMS").IsNumber = false
  | none => False

/-- The number lies in `[0, 60000]`; `NaN` and the infinities do not. -/
def JsNumber.inRange : JsNumber → Prop
  | .finite q => 0 ≤ q ∧ q ≤ 60000
  | _ => False

/-- Configuration error (e): `options.throttleTimeoutMS` is a number outside `[0, 60000]`. -/
def throttleOutOfRange (info : List Value) : Prop :=
  match (info[2]? : Option Value) with
  | some v => ∃ n, v.Get "throttleTimeoutMS" = .number n ∧ ¬ n.inRange
  | none => False

/-- The test of line 271 rejects the call: `options.throttleTimeoutMS` is a number that
compares below 0 or above 60000. -/
def throttleRejected (info : List Value) : Prop :=
  match (info[2]? : Option Value) with
  | some v => ∃ n, v.Get "throttleTimeoutMS" = .number n ∧ (n.ltZero = true ∨ n.gt60000 = true)
  | none => False

/-- The value of `options.throttleTimeoutMS` is the number `NaN`. -/
def throttleIsNaN (info : List Value) : Prop :=
  match (info[2]? : Option Value) with
  | some v =>
    match v.Get "throttleTimeoutMS" with
    | .number .nan => True
    | _ => False
  | none => False

/-- The interval a call asks for, as the worker receives it: the `uint32_t`
conversion of `options.throttleTimeoutMS` when that is a number, 0 otherwise. -/
def requestedThrottle (info : List Value) : Nat :=
  match (info[2]? : Option Value) with
  | some v =>
    match v.Get "throttleTimeoutMS" with
    | .number n => n.Uint32Value
    | _ => 0
  | none => 0

/-! ## The clock readings of the flushes -/

/-- The clock readings of the throttle checks that requested a flush, when the
scanner records the matches `paths` one after the other (`clock k` is the reading
during the check of the `k`-th match). -/
def flushTimes (clock : Nat → Int) (w : FindGitReposWorker) : List String → List Int
  | [] => []
  | p :: ps =>
    let w1 := w.recordMatch clock p
    (if w1.progressCallback = w.progressCallback + 1 then [clock w1.repositories.length]
      else []) ++ flushTimes clock w1 ps

/-! ## Directory trees -/

/-- What an entry of a directory is: a regular file, a directory, or a symbolic
link. -/
inductive Kind where
  | file
  | directory
  | symlink
deriving DecidableEq, Repr

/-- The entries of one directory, in the order the listing returns them, as a finite
tree.  An entry has a `name`, a `kind`, the flag `typeKnown` (whether the POSIX
listing reports its type, or `UV_DIRENT_UNKNOWN`), and its `content`: the entries
of the directory, or what listing through a symbolic link shows; `rest` are the
entries that follow in the same directory. -/
inductive Entries where
  | nil
  | cons (name : String) (kind : Kind) (typeKnown : Bool) (content : Entries) (rest : Entries)
deriving DecidableEq, Repr

/-- How a platform body walks a tree: the separator it puts between a directory and
an entry, the kinds of entry it takes for a directory, and the matches it records in
a directory that holds such an entry named `.git`. -/
structure Platform where
  sep : String
  traversed : Kind → Bool
  emit : String → Entries → List String

/-- The number of entries in a tree, at all levels. -/
def Entries.size : Entries → Nat
  | .nil => 0
  | .cons _ _ _ content rest => 1 + content.size + rest.size

/-- The directory has an entry named `.git` that the platform takes for a
directory. -/
def Entries.hasGit (pf : Platform) : Entries → Bool
  | .nil => false
  | .cons name kind _ _ rest => (pf.traversed kind && name == ".git") || rest.hasGit pf

/-- The paths of the entries named `.git` that the platform takes for a directory. -/
def Entries.gitPaths (sep : String) (traversed : Kind → Bool) (path : String) :
    Entries → List String
  | .nil => []
  | .cons name kind _ _ rest =>
    (if traversed kind && name == ".git" then [path ++ sep ++ name] else [])
      ++ rest.gitPaths sep traversed path

/-- The subdirectories the body stages in `temp`: the entries taken for a directory
and not named `.git`, with their paths. -/
def Entries.children (pf : Platform) (path : String) : Entries → List (String × Entries)
  | .nil => []
  | .cons name kind _ content rest =>
    (if pf.traversed kind && name != ".git" then [(path ++ pf.sep ++ name, content)] else [])
      ++ rest.children pf path

/-- Every directory strictly below the directory at `path`, with its path: the
proper descendants, `.git` directories and what lies under them included. -/
def Entries.descendants (pf : Platform) (path : String) : Entries → List (String × Entries)
  | .nil => []
  | .cons name kind _ content rest =>
    (if pf.traversed kind then
        (path ++ pf.sep ++ name, content) :: content.descendants pf (path ++ pf.sep ++ name)
      else [])
      ++ rest.descendants pf path

/-- The directories below `path` that are not cut off by pruning, when the directory
at `path` itself holds no `.git`: each staged child, and below it the same unless it
holds `.git`. -/
def Entries.visitedBelow (pf : Platform) (path : String) : Entries → List (String × Entries)
  | .nil => []
  | .cons name kind _ content rest =>
    (if pf.traversed kind && name != ".git" then
        (path ++ pf.sep ++ name, content) ::
          (if content.hasGit pf then [] else content.visitedBelow pf (path ++ pf.sep ++ name))
      else [])
      ++ rest.visitedBelow pf path

/-- The directories a scan from `path` lists. -/
def Entries.visited (pf : Platform) (path : String) (es : Entries) : List (String × Entries) :=
  (path, es) :: (if es.hasGit pf then [] else es.visitedBelow pf path)

/-- The matches recorded below `path`, when the directory at `path` itself holds no
`.git`, one subtree after the other. -/
def Entries.foundBelow (pf : Platform) (path : String) : Entries → List String
  | .nil => []
  | .cons name kind _ content rest =>
    (if pf.traversed kind && name != ".git" then
        (if content.hasGit pf then pf.emit (path ++ pf.sep ++ name) content
          else content.foundBelow pf (path ++ pf.sep ++ name))
      else [])
      ++ rest.foundBelow pf path

/-- The matches a scan from `path` records, one subtree after the other. -/
def Entries.found (pf : Platform) (path : String) (es : Entries) : List String :=
  if es.hasGit pf then pf.emit path es else es.foundBelow pf path

/-- What one pass of the outer loop does with the directory at `path`: the matches
it records and the paths it appends to the worklist. -/
def Entries.summary (pf : Platform) (path : String) (es : Entries) :
    List String × List String :=
  if es.hasGit pf then (pf.emit path es, []) else ([], (es.children pf path).map Prod.fst)

/-- The function `visit`, from a path to what a pass of the outer loop does with
it, agrees with the tree on every directory staged below `path`. -/
def Entries.ConformsBelow (pf : Platform) (visit : String → List String × List String)
    (path : String) : Entries → Prop
  | .nil => True
  | .cons name kind _ content rest =>
    (pf.traversed kind = true → name ≠ ".git" →
        visit (path ++ pf.sep ++ name) = content.summary pf (path ++ pf.sep ++ name) ∧
        content.ConformsBelow pf visit (path ++ pf.sep ++ name)) ∧
    rest.ConformsBelow pf visit path

/-- The outer loop of both bodies, on a function `visit` that gives for a path the
matches recorded there and the paths appended to the worklist (none of either when
the listing fails). -/
def bfs (visit : String → List String × List String) (clock : Nat → Int) :
    Nat → List String → FindGitReposWorker → Option FindGitReposWorker
  | _, [], w => some w
  | 0, _ :: _, _ => none
  | fuel + 1, currentPath :: foundPaths, w =>
    bfs visit clock fuel (foundPaths ++ (visit currentPath).2)
      ((visit currentPath).1.foldl (FindGitReposWorker.recordMatch clock) w)

/-! ## A tree as seen through the POSIX calls -/

/-- The type the listing reports for an entry of this kind. -/
def Kind.d_type : Kind → Posix.uv_dirent_type_t
  | .file => .UV_DIRENT_FILE
  | .directory => .UV_DIRENT_DIR
  | .symlink => .UV_DIRENT_LINK

/-- The `st_mode` that `lstat` reports for an entry of this kind (`lstat` does not
follow a symbolic link). -/
def Kind.st_mode : Kind → Nat
  | .file => Posix.S_IFREG ||| 0o644
  | .directory => Posix.S_IFDIR ||| 0o755
  | .symlink => Posix.S_IFLNK ||| 0o777

/-- The entries `uv_fs_scandir_next` returns for a directory of the tree. -/
def Entries.dirents : Entries → List Posix.uv_dirent_t
  | .nil => []
  | .cons name kind typeKnown _ rest =>
    ⟨name, if typeKnown then kind.d_type else .UV_DIRENT_UNKNOWN⟩ :: rest.dirents

/-- How the POSIX body walks a tree: only directories are entered, and a directory
holding `.git` directories has their paths recorded. -/
def Posix.platform : Platform :=
  { sep := "/"
    traversed := fun kind => kind == .directory
    emit := fun path es => es.gitPaths "/" (fun kind => kind == .directory) path }

/-- The call `uv_fs_scandir` on `path` answers as a directory with the entries `es` does; a
directory that cannot be listed is one that shows no entries. -/
def Posix.lists (fs : Posix.FileSystem) (path : String) (es : Entries) : Bool :=
  (fs.uv_fs_scandir (path ++ "/") == some es.dirents)
    || (es == .nil && fs.uv_fs_scandir (path ++ "/") == none)

/-- The call `uv_fs_lstat` on `path` answers as an entry of this kind does; an entry on which
it fails is one the scan cannot tell from a file.  Nothing is required when the
listing reports the type, since `uv_fs_lstat` is then not called. -/
def Posix.stats (fs : Posix.FileSystem) (path : String) (kind : Kind) (typeKnown : Bool) :
    Bool :=
  typeKnown || (fs.uv_fs_lstat path == some kind.st_mode)
    || (kind == .file && fs.uv_fs_lstat path == none)

/-- The file system answers as the tree does for everything below the directory at
`path`: `uv_fs_lstat` on each entry, `uv_fs_scandir` on each directory.  Nothing is
required of what a symbolic link leads to. -/
def Posix.describesBelow (fs : Posix.FileSystem) (path : String) : Entries → Bool
  | .nil => true
  | .cons name kind typeKnown content rest =>
    Posix.stats fs (path ++ "/" ++ name) kind typeKnown
      && (kind != .directory
          || (Posix.lists fs (path ++ "/" ++ name) content
              && Posix.describesBelow fs (path ++ "/" ++ name) content))
      && Posix.describesBelow fs path rest

/-- The file system answers as the directory at `path` with the entries `es` does. -/
def Posix.describes (fs : Posix.FileSystem) (path : String) (es : Entries) : Bool :=
  Posix.lists fs path es && Posix.describesBelow fs path es

/-- The entry passes the tests of lines 151-162: the body takes it for a
directory. -/
def Posix.taken (fs : Posix.FileSystem) (currentPath : String) (e : Posix.uv_dirent_t) : Bool :=
  if e.type = .UV_DIRENT_UNKNOWN then
    match fs.uv_fs_lstat (currentPath ++ "/" ++ e.name) with
    | none => false
    | some st_mode => Posix.S_ISDIR st_mode && !Posix.S_ISLNK st_mode
  else
    decide (e.type = .UV_DIRENT_DIR)

/-- The paths the inner loop appends to `temp`. -/
def Posix.staged (fs : Posix.FileSystem) (currentPath : String) :
    List Posix.uv_dirent_t → List String
  | [] => []
  | e :: more =>
    (if Posix.taken fs currentPath e && e.name != ".git" then [currentPath ++ "/" ++ e.name]
      else []) ++ Posix.staged fs currentPath more

/-- The paths the inner loop records as matches. -/
def Posix.recorded (fs : Posix.FileSystem) (currentPath : String) :
    List Posix.uv_dirent_t → List String
  | [] => []
  | e :: more =>
    (if Posix.taken fs currentPath e && e.name == ".git" then [currentPath ++ "/" ++ e.name]
      else []) ++ Posix.recorded fs currentPath more

/-- What one pass of the POSIX outer loop does with `currentPath`. -/
def Posix.visit (fs : Posix.FileSystem) (currentPath : String) : List String × List String :=
  match fs.uv_fs_scandir (currentPath ++ "/") with
  | none => ([], [])
  | some entries =>
    (Posix.recorded fs currentPath entries,
      if (Posix.recorded fs currentPath entries).isEmpty then Posix.staged fs currentPath entries
      else [])

/-! ## A tree as seen through the Windows calls -/

/-- How the Windows body walks a tree: every entry with the directory attribute is
entered, a symbolic link to a directory included, and a directory holding such an
entry named `.git` has its own converted path, followed by `\.git`, recorded once
(nothing when the conversion fails). -/
def Win32.platform (h : Win32.WindowsHelpers) (wasNtPath : Bool) : Platform :=
  { sep := "\\"
    traversed := fun kind => kind != .file
    emit := fun path _ =>
      match h.convertWideCharToMultiByte path wasNtPath with
      | none => []
      | some repoPath => [repoPath ++ "\\.git"] }

/-- The entry is `.` or `..`. -/
def Win32.isDot (FindFileData : Win32.WIN32_FIND_DATAW) : Bool :=
  FindFileData.cFileName == "." || FindFileData.cFileName == ".."

/-- The listing, `.` and `..` left aside, shows the entries of the tree in order:
same names, and the directory attribute on exactly the directories and the symbolic
links. -/
def Win32.shows : List Win32.WIN32_FIND_DATAW → Entries → Bool
  | [], .nil => true
  | [], .cons _ _ _ _ _ => false
  | d :: ds, es =>
    if Win32.isDot d then Win32.shows ds es
    else
      match es with
      | .nil => false
      | .cons name kind _ _ rest =>
        d.cFileName == name && (Win32.isDirectory d == (kind != .file)) && Win32.shows ds rest

/-- The entries `FindFirstFileW` and `FindNextFileW` return for `path`; none when
`FindFirstFileW` fails. -/
def Win32.listing (fs : Win32.FileSystem) (path : String) : List Win32.WIN32_FIND_DATAW :=
  match fs.FindFirstFileW (path ++ "\\*") with
  | none => []
  | some (FindFileData, more) => FindFileData :: more

/-- The file system answers as the tree does for everything below the directory at
`path`, also behind symbolic links. -/
def Win32.describesBelow (fs : Win32.FileSystem) (path : String) : Entries → Bool
  | .nil => true
  | .cons name kind _ content rest =>
    (kind == .file
        || (Win32.shows (Win32.listing fs (path ++ "\\" ++ name)) content
            && Win32.describesBelow fs (path ++ "\\" ++ name) content))
      && Win32.describesBelow fs path rest

/-- The file system answers as the directory at `path` with the entries `es` does. -/
def Win32.describes (fs : Win32.FileSystem) (path : String) (es : Entries) : Bool :=
  Win32.shows (Win32.listing fs path) es && Win32.describesBelow fs path es

/-- What the tests of lines 71-75 and 97-105 make of a listing: the paths appended
to `tempPaths` before a `.git` directory is met, and whether one is met. -/
def Win32.scan (currentPath : String) : List Win32.WIN32_FIND_DATAW → List String × Bool
  | [] => ([], false)
  | d :: ds =>
    if Win32.isDot d then Win32.scan currentPath ds
    else if !Win32.isDirectory d then Win32.scan currentPath ds
    else if d.cFileName = ".git" then ([], true)
    else ((currentPath ++ "\\" ++ d.cFileName) :: (Win32.scan currentPath ds).1,
      (Win32.scan currentPath ds).2)

/-- What one pass of the Windows outer loop does with `currentPath`. -/
def Win32.visit (h : Win32.WindowsHelpers) (fs : Win32.FileSystem) (wasNtPath : Bool)
    (currentPath : String) : List String × List String :=
  if (Win32.scan currentPath (Win32.listing fs currentPath)).2 then
    ((Win32.platform h wasNtPath).emit currentPath .nil, [])
  else
    ([], (Win32.scan currentPath (Win32.listing fs currentPath)).1)

/-- The root path the Windows body puts on the worklist, when it puts one. -/
def Win32.rootPath (h : Win32.WindowsHelpers) (path : String) : String :=
  if h.isNtPath (h.convertMultiByteToWideChar path) then h.convertMultiByteToWideChar path
  else h.prefixWithNtPath (Win32.popTrailingBackslashes (h.convertMultiByteToWideChar path))

/-! ## Examples -/

/-- What an observer sees of a state: whether it is quiescent, the batches
delivered, the result list `OnOK` resolves with, and the queue. -/
def System.observe (s : System) : Bool × List (List String) × List String × List String :=
  (decide s.Quiescent, s.delivered, s.worker.OnOK, s.worker.progressQueue.items)

/-- The directory `/r` with the two repositories `/r/a` and `/r/b`. -/
def Posix.twoRepositories : Posix.FileSystem :=
  Posix.FileSystem.ofTables
    [("/r/", [⟨"a", .UV_DIRENT_DIR⟩, ⟨"b", .UV_DIRENT_DIR⟩]),
     ("/r/a/", [⟨".git", .UV_DIRENT_DIR⟩]),
     ("/r/b/", [⟨".git", .UV_DIRENT_DIR⟩]),
     ("/r/a/.git/", []),
     ("/r/b/.git/", [])] []

/-- A scan of `/r` interleaved with the JavaScript thread: the first match is
delivered before the second one is found, one millisecond later. -/
def lateMatchRun : List Event :=
  [.enqueue "/r/a/.git", .push_back, .throttle 5000000,
   .callbackStart, .callbackDequeue,
   .enqueue "/r/b/.git", .push_back, .throttle 6000000]

/-- A scan of `/r` with interval 0: both matches are found before the JavaScript
thread runs; the first delivery lambda takes both, the second finds the queue
empty. -/
def burstRun : List Event :=
  [.enqueue "/r/a/.git", .push_back, .throttle 5000000,
   .enqueue "/r/b/.git", .push_back, .throttle 6000000,
   .callbackStart, .callbackDequeue, .callbackDequeue, .callbackStart]

/-- Modelled from the spec: the helpers of `includes/WindowsHelpers.h` on plain
paths, for the examples.  Section 3 of the spec says that the long-path prefix is
applied transparently: the path is prefixed with `\\?\` unless it already is, and
the prefix that was added is removed again from the paths reported. -/
def Win32.plainHelpers : Win32.WindowsHelpers :=
  { convertMultiByteToWideChar := fun p => p
    isNtPath := fun p => p.data.take 4 == "\\\\?\\".data
    prefixWithNtPath := fun p => "\\\\?\\" ++ p
    convertWideCharToMultiByte := fun p wasNtPath =>
      some (if wasNtPath then p else ⟨p.data.drop 4⟩) }

/-- The Windows directory `C:\root` whose only entry besides `.` and `..` is `lnk`, a
symbolic link to a directory (`FILE_ATTRIBUTE_DIRECTORY | FILE_ATTRIBUTE_REPARSE_POINT`);
listing through the link shows the `.git` directory of the target. -/
def Win32.linkedRepository : Win32.FileSystem :=
  Win32.FileSystem.ofTable
    [("\\\\?\\C:\\root\\*", ⟨0x10, "."⟩,
        [⟨0x10, ".."⟩, ⟨FILE_ATTRIBUTE_DIRECTORY ||| FILE_ATTRIBUTE_REPARSE_POINT, "lnk"⟩]),
     ("\\\\?\\C:\\root\\lnk\\*", ⟨0x10, "."⟩, [⟨0x10, ".."⟩, ⟨0x10, ".git"⟩])]

/-- The same tree on POSIX, `/root/lnk` being a symbolic link to a directory that
holds `.git`: the listing reports the type of `lnk` when `typeKnown`, otherwise it
reports `UV_DIRENT_UNKNOWN` and `uv_fs_lstat` answers. -/
def Posix.linkedRepository (typeKnown : Bool) : Posix.FileSystem :=
  Posix.FileSystem.ofTables
    [("/root/", [⟨"lnk", if typeKnown then .UV_DIRENT_LINK else .UV_DIRENT_UNKNOWN⟩]),
     ("/root/lnk/", [⟨".git", .UV_DIRENT_DIR⟩]),
     ("/root/lnk/.git/", [])]
    [("/root/lnk", 0o120777), ("/root/lnk/.git", 0o040755)]

/-- The POSIX root directory holding a `.git` directory. -/
def Posix.repositoryAtRoot : Posix.FileSystem :=
  Posix.FileSystem.ofTables [("//", [⟨".git", .UV_DIRENT_DIR⟩]), ("//.git/", [])] []

/-- The tree `/root/x/.git/y/.git`, as the entries of `/root`. -/
def nestedTree : Entries :=
  .cons "x" .directory true
    (.cons ".git" .directory true
      (.cons "y" .directory true (.cons ".git" .directory true .nil .nil) .nil) .nil) .nil

/-- The POSIX file system holding `nestedTree` at `/root`. -/
def Posix.nested : Posix.FileSystem :=
  Posix.FileSystem.ofTables
    [("/root/", [⟨"x", .UV_DIRENT_DIR⟩]),
     ("/root/x/", [⟨".git", .UV_DIRENT_DIR⟩]),
     ("/root/x/.git/", [⟨"y", .UV_DIRENT_DIR⟩]),
     ("/root/x/.git/y/", [⟨".git", .UV_DIRENT_DIR⟩]),
     ("/root/x/.git/y/.git/", [])]
    [("/root/x", 0o040755), ("/root/x/.git", 0o040755), ("/root/x/.git/y", 0o040755),
     ("/root/x/.git/y/.git", 0o040755)]

/-- The Windows file system holding `nestedTree` at `C:\root`. -/
def Win32.nested : Win32.FileSystem :=
  Win32.FileSystem.ofTable
    [("\\\\?\\C:\\root\\*", ⟨0x10, "."⟩, [⟨0x10, ".."⟩, ⟨0x10, "x"⟩]),
     ("\\\\?\\C:\\root\\x\\*", ⟨0x10, "."⟩, [⟨0x10, ".."⟩, ⟨0x10, ".git"⟩]),
     ("\\\\?\\C:\\root\\x\\.git\\*", ⟨0x10, "."⟩, [⟨0x10, ".."⟩, ⟨0x10, "y"⟩]),
     ("\\\\?\\C:\\root\\x\\.git\\y\\*", ⟨0x10, "."⟩, [⟨0x10, ".."⟩, ⟨0x10, ".git"⟩]),
     ("\\\\?\\C:\\root\\x\\.git\\y\\.git\\*", ⟨0x10, "."⟩, [⟨0x10, ".."⟩])]

/-- The tree `/root/{a/.git, b/c/.git, d/}`, as the entries of `/root`; the type of
`b` is not reported by the listing. -/
def threeTree : Entries :=
  .cons "a" .directory true (.cons ".git" .directory true .nil .nil)
    (.cons "b" .directory false
      (.cons "c" .directory true (.cons ".git" .directory true .nil .nil) .nil)
      (.cons "d" .directory true .nil .nil))

/-- The POSIX file system holding `threeTree` at `/root`. -/
def Posix.three : Posix.FileSystem :=
  Posix.FileSystem.ofTables
    [("/root/", [⟨"a", .UV_DIRENT_DIR⟩, ⟨"b", .UV_DIRENT_UNKNOWN⟩, ⟨"d", .UV_DIRENT_DIR⟩]),
     ("/root/a/", [⟨".git", .UV_DIRENT_DIR⟩]),
     ("/root/a/.git/", []),
     ("/root/b/", [⟨"c", .UV_DIRENT_DIR⟩]),
     ("/root/b/c/", [⟨".git", .UV_DIRENT_DIR⟩]),
     ("/root/b/c/.git/", []),
     ("/root/d/", [])]
    [("/root/a", 0o040755), ("/root/a/.git", 0o040755), ("/root/b", 0o040755),
     ("/root/b/c", 0o040755), ("/root/b/c/.git", 0o040755), ("/root/d", 0o040755)]

/-- The POSIX directory `/root` whose subdirectory `a` holds a regular file named
`.git` (as in a linked worktree or a submodule checkout); the listing reports the
type of the file when `typeKnown`. -/
def Posix.gitFile (typeKnown : Bool) : Posix.FileSystem :=
  Posix.FileSystem.ofTables
    [("/root/", [⟨"a", .UV_DIRENT_DIR⟩]),
     ("/root/a/", [⟨".git", if typeKnown then .UV_DIRENT_FILE else .UV_DIRENT_UNKNOWN⟩])]
    [("/root/a", 0o040755), ("/root/a/.git", 0o100644)]

/-! ## Theorems: the throttle -/

theorem recordMatch_throttleTimeoutMS (clock : Nat → Int) (w : FindGitReposWorker)
    (p : String) : (w.recordMatch clock p).throttleTimeoutMS = w.throttleTimeoutMS := by
  unfold FindGitReposWorker.recordMatch FindGitReposWorker.ThrottledProgressCallback
    FindGitReposWorker.NonBlockingCall
  dsimp only
  split_ifs <;> rfl

theorem recordMatch_repositories (clock : Nat → Int) (w : FindGitReposWorker)
    (p : String) : (w.recordMatch clock p).repositories = w.repositories ++ [p] := by
  unfold FindGitReposWorker.recordMatch FindGitReposWorker.ThrottledProgressCallback
    FindGitReposWorker.NonBlockingCall
  dsimp only
  split_ifs <;> rfl

theorem recordMatch_progressQueue (clock : Nat → Int) (w : FindGitReposWorker)
    (p : String) : (w.recordMatch clock p).progressQueue = w.progressQueue.enqueue p := by
  unfold FindGitReposWorker.recordMatch FindGitReposWorker.ThrottledProgressCallback
    FindGitReposWorker.NonBlockingCall
  dsimp only
  split_ifs <;> rfl

theorem recordMatch_path (clock : Nat → Int) (w : FindGitReposWorker)
    (p : String) : (w.recordMatch clock p).path = w.path := by
  unfold FindGitReposWorker.recordMatch FindGitReposWorker.ThrottledProgressCallback
    FindGitReposWorker.NonBlockingCall
  dsimp only
  split_ifs <;> rfl

/-- When a throttle check with a positive interval requests a flush, the reading of
that check becomes the last flush time; otherwise the last flush time stays. -/
theorem recordMatch_last (clock : Nat → Int) (w : FindGitReposWorker) (p : String)
    (hT : 0 < w.throttleTimeoutMS) :
    let w1 := w.recordMatch clock p
    (w1.progressCallback = w.progressCallback + 1 →
        w1.lastProgressCallbackTimePoint = clock w1.repositories.length ∧
        w.lastProgressCallbackTimePoint + msToTicks w.throttleTimeoutMS
          ≤ clock w1.repositories.length) ∧
    (w1.progressCallback ≠ w.progressCallback + 1 →
        w1.lastProgressCallbackTimePoint = w.lastProgressCallbackTimePoint) := by
  intro w1
  have hne : w.throttleTimeoutMS ≠ 0 := Nat.pos_iff_ne_zero.mp hT
  have hrep : w1.repositories = w.repositories ++ [p] := recordMatch_repositories clock w p
  rw [hrep]
  simp only [w1, FindGitReposWorker.recordMatch, FindGitReposWorker.ThrottledProgressCallback,
    FindGitReposWorker.NonBlockingCall, hne, if_false]
  split_ifs with h
  · simp
  · simp only [true_and, forall_const, ne_eq, not_true_eq_false, false_implies, and_true]
    omega

/-- Every flush time produced from `w` is at least one interval after the last
flush time of `w`. -/
theorem flushTimes_ge (clock : Nat → Int) (paths : List String) :
    ∀ w : FindGitReposWorker, 0 < w.throttleTimeoutMS →
      ∀ t ∈ flushTimes clock w paths,
        w.lastProgressCallbackTimePoint + msToTicks w.throttleTimeoutMS ≤ t := by
  induction paths with
  | nil => intro w _ t ht; simp [flushTimes] at ht
  | cons p ps ih =>
    intro w hT t ht
    have hl := recordMatch_last clock w p hT
    have hT1 : 0 < (w.recordMatch clock p).throttleTimeoutMS := by
      rw [recordMatch_throttleTimeoutMS]; exact hT
    have hpos : 0 ≤ msToTicks w.throttleTimeoutMS := by unfold msToTicks; positivity
    simp only [flushTimes, List.mem_append] at ht
    rcases ht with ht | ht
    · split_ifs at ht with hreq
      · simp only [List.mem_singleton] at ht
        rw [ht]; exact (hl.1 hreq).2
      · simp at ht
    · have := ih _ hT1 t ht
      rw [recordMatch_throttleTimeoutMS] at this
      by_cases hreq : (w.recordMatch clock p).progressCallback = w.progressCallback + 1
      · have h1 := hl.1 hreq
        rw [h1.1] at this
        linarith [h1.2]
      · rw [hl.2 hreq] at this
        linarith

/-- C8 (throttle decision): a call of `ThrottledProgressCallback` with interval `T`,
last flush time `last` and clock reading `now` schedules a delivery if and only if
`T = 0` or `now - last >= T` (in clock ticks); it never schedules more than one;
with `T = 0` every call schedules one; with `T > 0` the last flush time becomes
`now` when a delivery is scheduled and is unchanged otherwise.  The queue, the
result list, the root path and the interval are never touched. -/
theorem C8_throttle_decision (w : FindGitReposWorker) (now : Int) :
    ((w.ThrottledProgressCallback now).progressCallback = w.progressCallback + 1 ↔
        (w.throttleTimeoutMS = 0 ∨
          now - w.lastProgressCallbackTimePoint ≥ msToTicks w.throttleTimeoutMS)) ∧
    ((w.ThrottledProgressCallback now).progressCallback = w.progressCallback + 1 ∨
        (w.ThrottledProgressCallback now).progressCallback = w.progressCallback) ∧
    (w.throttleTimeoutMS = 0 →
        (w.ThrottledProgressCallback now).progressCallback = w.progressCallback + 1) ∧
    (0 < w.throttleTimeoutMS →
        ((w.ThrottledProgressCallback now).progressCallback = w.progressCallback + 1 →
          (w.ThrottledProgressCallback now).lastProgressCallbackTimePoint = now) ∧
        ((w.ThrottledProgressCallback now).progressCallback ≠ w.progressCallback + 1 →
          (w.ThrottledProgressCallback now).lastProgressCallbackTimePoint
            = w.lastProgressCallbackTimePoint)) ∧
    (w.ThrottledProgressCallback now).progressQueue = w.progressQueue ∧
    (w.ThrottledProgressCallback now).repositories = w.repositories ∧
    (w.ThrottledProgressCallback now).path = w.path ∧
    (w.ThrottledProgressCallback now).throttleTimeoutMS = w.throttleTimeoutMS := by
  unfold FindGitReposWorker.ThrottledProgressCallback FindGitReposWorker.NonBlockingCall
  by_cases h0 : w.throttleTimeoutMS = 0
  · simp [h0]
  · by_cases hlt : now - w.lastProgressCallbackTimePoint < msToTicks w.throttleTimeoutMS
    · rw [if_neg h0, if_pos hlt]
      refine ⟨?_, ?_, ?_, ?_, rfl, rfl, rfl, rfl⟩
      · constructor
        · intro h; omega
        · rintro (h | h)
          · exact absurd h h0
          · omega
      · right; rfl
      · intro h; exact absurd h h0
      · intro _; exact ⟨fun h => by omega, fun _ => rfl⟩
    · rw [if_neg h0, if_neg hlt]
      refine ⟨?_, ?_, ?_, ?_, rfl, rfl, rfl, rfl⟩
      · constructor
        · intro _; right; omega
        · intro _; trivial
      · left; trivial
      · intro h; exact absurd h h0
      · intro _; exact ⟨fun _ => rfl, fun h => absurd rfl h⟩

/-- C4 (throttle above 0): with an interval `T > 0`, for every sequence of matches and
every clock, the throttle checks that schedule a delivery are pairwise at least `T`
milliseconds apart (each later one at least `T` after each earlier one). -/
theorem C4_flushes_spaced (clock : Nat → Int) (w : FindGitReposWorker) (paths : List String)
    (hT : 0 < w.throttleTimeoutMS) :
    List.Pairwise (fun a b => a + msToTicks w.throttleTimeoutMS ≤ b)
      (flushTimes clock w paths) := by
  induction paths generalizing w with
  | nil => simp [flushTimes]
  | cons p ps ih =>
    have hl := recordMatch_last clock w p hT
    have hT1 : 0 < (w.recordMatch clock p).throttleTimeoutMS := by
      rw [recordMatch_throttleTimeoutMS]; exact hT
    have ih1 := ih (w.recordMatch clock p) hT1
    rw [recordMatch_throttleTimeoutMS] at ih1
    have hge := flushTimes_ge clock ps (w.recordMatch clock p) hT1
    rw [recordMatch_throttleTimeoutMS] at hge
    simp only [flushTimes]
    split_ifs with hreq
    · simp only [List.singleton_append, List.pairwise_cons]
      refine ⟨fun t ht => ?_, ih1⟩
      have := hge t ht
      rw [(hl.1 hreq).1] at this
      exact this
    · simpa using ih1

/-- The first throttle check of a new worker always schedules a delivery when the
clock does not run backwards: the flush times of C4 are not an empty list. -/
theorem C4_flushes_spaced_witness :
    flushTimes (fun k => (k : Int) * 600000000)
        (FindGitReposWorker.new "/root" ⟨[]⟩ 1000 0) ["a", "b", "c", "d"]
      = [600000000, 1800000000] ∧
    List.Pairwise (fun a b => a + msToTicks 1000 ≤ b)
      (flushTimes (fun k => (k : Int) * 600000000)
        (FindGitReposWorker.new "/root" ⟨[]⟩ 1000 0) ["a", "b", "c", "d"]) :=
  ⟨by decide, C4_flushes_spaced _ (FindGitReposWorker.new "/root" ⟨[]⟩ 1000 0) _ (by decide)⟩

/-! ## Theorems: the two threads -/

theorem System.run_append (s : System) (es fs : List Event) :
    s.run (es ++ fs) = (s.run es).bind (fun s1 => s1.run fs) := by
  induction es generalizing s with
  | nil => simp [System.run]
  | cons e es ih =>
    simp only [List.cons_append, System.run]
    cases h : s.step e with
    | none => simp
    | some s1 => simp [ih]

/-- An induction principle for the states a list of events leads to. -/
theorem System.run_induction (P : System → Prop)
    (hstep : ∀ s e s1, P s → s.step e = some s1 → P s1) :
    ∀ (es : List Event) (s s1 : System), P s → s.run es = some s1 → P s1 := by
  intro es
  induction es with
  | nil =>
    intro s s1 hP h
    simp only [System.run, Option.some.injEq] at h
    exact h ▸ hP
  | cons e es ih =>
    intro s s1 hP h
    simp only [System.run] at h
    cases h1 : s.step e with
    | none => simp [h1] at h
    | some s2 =>
      simp only [h1, Option.some_bind] at h
      exact ih s2 s1 (hstep s e s2 hP h1) h

theorem ThrottledProgressCallback_repositories (w : FindGitReposWorker) (now : Int) :
    (w.ThrottledProgressCallback now).repositories = w.repositories := by
  unfold FindGitReposWorker.ThrottledProgressCallback FindGitReposWorker.NonBlockingCall
  split_ifs <;> rfl

theorem ThrottledProgressCallback_progressQueue (w : FindGitReposWorker) (now : Int) :
    (w.ThrottledProgressCallback now).progressQueue = w.progressQueue := by
  unfold FindGitReposWorker.ThrottledProgressCallback FindGitReposWorker.NonBlockingCall
  split_ifs <;> rfl

theorem ThrottledProgressCallback_throttleTimeoutMS (w : FindGitReposWorker) (now : Int) :
    (w.ThrottledProgressCallback now).throttleTimeoutMS = w.throttleTimeoutMS := by
  unfold FindGitReposWorker.ThrottledProgressCallback FindGitReposWorker.NonBlockingCall
  split_ifs <;> rfl

/-- The case analysis of one step, as the list of what can have happened. -/
theorem System.step_cases (s s1 : System) (e : Event) (h : s.step e = some s1) :
    (∃ p, e = .enqueue p ∧ s.scanner = .idle ∧
      s1 = { s with
        worker := { s.worker with progressQueue := s.worker.progressQueue.enqueue p }
        scanner := .enqueued p }) ∨
    (∃ p, e = .push_back ∧ s.scanner = .enqueued p ∧
      s1 = { s with
        worker := { s.worker with repositories := s.worker.repositories ++ [p] }
        scanner := .pushed }) ∨
    (∃ now, e = .throttle now ∧ s.scanner = .pushed ∧
      s1 = { s with worker := s.worker.ThrottledProgressCallback now, scanner := .idle }) ∨
    (e = .callbackStart ∧ s.callback = none ∧ s.worker.progressCallback ≠ 0 ∧
      s.worker.progressQueue.items = [] ∧
      s1 = { s with
        worker := { s.worker with progressCallback := s.worker.progressCallback - 1 } }) ∨
    (e = .callbackStart ∧ s.callback = none ∧ s.worker.progressCallback ≠ 0 ∧
      s.worker.progressQueue.items ≠ [] ∧
      s1 = { s with
        worker := { s.worker with progressCallback := s.worker.progressCallback - 1 }
        callback := some (s.worker.progressQueue.items.length, []) }) ∨
    (∃ arr p q, e = .callbackDequeue ∧ s.callback = some (1, arr) ∧
      s.worker.progressQueue.items = p :: q ∧
      s1 = { s with
        worker := { s.worker with progressQueue := ⟨q⟩ }, callback := none
        delivered := s.delivered ++ [arr ++ [p]] }) ∨
    (∃ k arr p q, e = .callbackDequeue ∧ s.callback = some (k + 2, arr) ∧
      s.worker.progressQueue.items = p :: q ∧
      s1 = { s with
        worker := { s.worker with progressQueue := ⟨q⟩ }
        callback := some (k + 1, arr ++ [p]) }) := by
  cases e with
  | enqueue p =>
    simp only [System.step] at h
    split at h
    · rename_i hs
      left
      exact ⟨p, rfl, hs, (Option.some.inj h).symm⟩
    · exact absurd h (by simp)
  | push_back =>
    simp only [System.step] at h
    split at h
    · rename_i p hs
      right; left
      exact ⟨p, rfl, hs, (Option.some.inj h).symm⟩
    · exact absurd h (by simp)
  | throttle now =>
    simp only [System.step] at h
    split at h
    · rename_i hs
      right; right; left
      exact ⟨now, rfl, hs, (Option.some.inj h).symm⟩
    · exact absurd h (by simp)
  | callbackStart =>
    simp only [System.step] at h
    split at h
    · exact absurd h (by simp)
    · rename_i hc
      split_ifs at h with h0 hn
      · right; right; right; left
        refine ⟨rfl, hc, h0, ?_, (Option.some.inj h).symm⟩
        exact List.length_eq_zero.mp hn
      · right; right; right; right; left
        refine ⟨rfl, hc, h0, ?_, (Option.some.inj h).symm⟩
        intro hnil
        exact hn (by simp [RepositoryQueue.count, hnil])
  | callbackDequeue =>
    simp only [System.step] at h
    split at h
    · rename_i remaining arr hc
      cases hq : s.worker.progressQueue.items with
      | nil => simp [RepositoryQueue.dequeue, hq] at h
      | cons p q =>
        simp only [RepositoryQueue.dequeue, hq] at h
        split_ifs at h with hr
        · right; right; right; right; right; left
          subst hr
          exact ⟨arr, p, q, rfl, hc, rfl, (Option.some.inj h).symm⟩
        · right; right; right; right; right; right
          obtain ⟨k, rfl⟩ := Nat.exists_eq_succ_of_ne_zero hr
          exact ⟨k, arr, p, q, rfl, hc, rfl, (Option.some.inj h).symm⟩
    · exact absurd h (by simp)

theorem OnOK_eq (w : FindGitReposWorker) : w.OnOK = w.repositories := by
  unfold FindGitReposWorker.OnOK
  apply List.ext_getElem
  · simp
  · intro n h1 h2
    simp [List.getElem?_eq_getElem h2]

/-- One step keeps the order invariant: delivered batches, then the array being
filled, then the queue, make up the result list followed by the match being
recorded. -/
theorem System.step_order (s s1 : System) (e : Event)
    (hinv : s.delivered.flatten ++ s.inflight ++ s.worker.progressQueue.items
      = s.worker.repositories ++ s.pending)
    (h : s.step e = some s1) :
    s1.delivered.flatten ++ s1.inflight ++ s1.worker.progressQueue.items
      = s1.worker.repositories ++ s1.pending := by
  rcases System.step_cases s s1 e h with
    ⟨p, -, hs, rfl⟩ | ⟨p, -, hs, rfl⟩ | ⟨now, -, hs, rfl⟩ | ⟨-, hc, -, hq, rfl⟩ |
    ⟨-, hc, -, hq, rfl⟩ | ⟨arr, p, q, -, hc, hq, rfl⟩ | ⟨k, arr, p, q, -, hc, hq, rfl⟩
  · simp only [System.inflight, System.pending, hs, RepositoryQueue.enqueue,
      List.append_nil] at hinv ⊢
    rw [← List.append_assoc, hinv]
  · simp only [System.inflight, System.pending, hs, List.append_nil] at hinv ⊢
    exact hinv
  · simp only [System.inflight, System.pending, hs, List.append_nil,
      ThrottledProgressCallback_repositories, ThrottledProgressCallback_progressQueue]
      at hinv ⊢
    exact hinv
  · simpa [System.inflight, System.pending, hc] using hinv
  · simpa [System.inflight, System.pending, hc] using hinv
  · simp only [System.inflight, System.pending, hc, hq, List.flatten_append,
      List.flatten_cons, List.flatten_nil, List.append_nil] at hinv ⊢
    rw [← hinv]; simp
  · simp only [System.inflight, System.pending, hc, hq] at hinv ⊢
    rw [← hinv]; simp

/-- One step never delivers an empty batch. -/
theorem System.step_nonempty (s s1 : System) (e : Event) (hinv : [] ∉ s.delivered)
    (h : s.step e = some s1) : [] ∉ s1.delivered := by
  rcases System.step_cases s s1 e h with
    ⟨p, -, hs, rfl⟩ | ⟨p, -, hs, rfl⟩ | ⟨now, -, hs, rfl⟩ | ⟨-, hc, -, hq, rfl⟩ |
    ⟨-, hc, -, hq, rfl⟩ | ⟨arr, p, q, -, hc, hq, rfl⟩ | ⟨k, arr, p, q, -, hc, hq, rfl⟩
  all_goals first
    | exact hinv
    | (simp only [List.mem_append, List.mem_singleton, not_or]
       exact ⟨hinv, fun h0 => by simp at h0⟩)

/-- One step only adds batches at the end of the delivered ones. -/
theorem System.step_delivered_prefix (s s1 : System) (e : Event) (h : s.step e = some s1) :
    s.delivered.flatten <+: s1.delivered.flatten := by
  rcases System.step_cases s s1 e h with
    ⟨p, -, hs, rfl⟩ | ⟨p, -, hs, rfl⟩ | ⟨now, -, hs, rfl⟩ | ⟨-, hc, -, hq, rfl⟩ |
    ⟨-, hc, -, hq, rfl⟩ | ⟨arr, p, q, -, hc, hq, rfl⟩ | ⟨k, arr, p, q, -, hc, hq, rfl⟩
  all_goals first
    | exact List.prefix_refl _
    | (simp only [List.flatten_append]; exact List.prefix_append _ _)

theorem System.run_delivered_prefix (es : List Event) :
    ∀ (s s1 : System), s.run es = some s1 → s.delivered.flatten <+: s1.delivered.flatten := by
  induction es with
  | nil =>
    intro s s1 h
    simp only [System.run, Option.some.injEq] at h
    exact h ▸ List.prefix_refl _
  | cons e es ih =>
    intro s s1 h
    simp only [System.run] at h
    cases h1 : s.step e with
    | none => simp [h1] at h
    | some s2 =>
      simp only [h1, Option.some_bind] at h
      exact (System.step_delivered_prefix s s2 e h1).trans (ih s2 s1 h)

/-- One step keeps the interval of the worker. -/
theorem System.step_throttleTimeoutMS (s s1 : System) (e : Event) (h : s.step e = some s1) :
    s1.worker.throttleTimeoutMS = s.worker.throttleTimeoutMS := by
  rcases System.step_cases s s1 e h with
    ⟨p, -, hs, rfl⟩ | ⟨p, -, hs, rfl⟩ | ⟨now, -, hs, rfl⟩ | ⟨-, hc, -, hq, rfl⟩ |
    ⟨-, hc, -, hq, rfl⟩ | ⟨arr, p, q, -, hc, hq, rfl⟩ | ⟨k, arr, p, q, -, hc, hq, rfl⟩
  all_goals first
    | rfl
    | exact ThrottledProgressCallback_throttleTimeoutMS _ _

/-- With interval 0, one step keeps this: when no delivery lambda is scheduled, the
queue holds no more than what the running lambda will dequeue plus the match whose
throttle check is still to come. -/
theorem System.step_drained (s s1 : System) (e : Event)
    (hT : s.worker.throttleTimeoutMS = 0)
    (hinv : s.worker.progressCallback = 0 →
      s.worker.progressQueue.items.length ≤ s.remaining + s.unchecked)
    (h : s.step e = some s1) :
    s1.worker.progressCallback = 0 →
      s1.worker.progressQueue.items.length ≤ s1.remaining + s1.unchecked := by
  rcases System.step_cases s s1 e h with
    ⟨p, -, hs, rfl⟩ | ⟨p, -, hs, rfl⟩ | ⟨now, -, hs, rfl⟩ | ⟨-, hc, -, hq, rfl⟩ |
    ⟨-, hc, -, hq, rfl⟩ | ⟨arr, p, q, -, hc, hq, rfl⟩ | ⟨k, arr, p, q, -, hc, hq, rfl⟩
  · intro h0
    have := hinv h0
    simp only [System.remaining, System.unchecked, hs, RepositoryQueue.enqueue,
      List.length_append, List.length_singleton] at this ⊢
    omega
  · intro h0
    have := hinv h0
    simp only [System.remaining, System.unchecked, hs] at this ⊢
    exact this
  · intro h0
    exfalso
    simp only [FindGitReposWorker.ThrottledProgressCallback, hT, if_true,
      FindGitReposWorker.NonBlockingCall] at h0
    omega
  · intro _
    simp [hq]
  · intro _
    simp [System.remaining]
  · intro h0
    have := hinv h0
    simp only [System.remaining, System.unchecked, hc, hq, List.length_cons] at this ⊢
    omega
  · intro h0
    have := hinv h0
    simp only [System.remaining, System.unchecked, hc, hq, List.length_cons] at this ⊢
    omega

/-- The scanner statements of one match, run without the JavaScript thread in
between, are `recordMatch`. -/
theorem System.run_recordMatch (s : System) (clock : Nat → Int) (p : String)
    (hs : s.scanner = .idle) :
    s.run [.enqueue p, .push_back, .throttle (clock (s.worker.repositories.length + 1))]
      = some { s with worker := s.worker.recordMatch clock p } := by
  simp [System.run, System.step, hs, FindGitReposWorker.recordMatch]

/-- C9 (no empty batch): in every interleaving of the scanner with the delivery
lambdas, starting from a worker just queued, no batch passed to the progress
callback is empty; and a delivery lambda that starts on an empty queue ends at once,
delivering nothing. -/
theorem C9_no_empty_batch (w : FindGitReposWorker) (events : List Event) (s : System)
    (h : (System.start w).run events = some s) :
    [] ∉ s.delivered ∧
    (s.worker.progressQueue.items = [] →
      ∀ s1, s.step .callbackStart = some s1 → s1.delivered = s.delivered ∧ s1.callback = none) := by
  constructor
  · exact System.run_induction (fun s => [] ∉ s.delivered)
      (fun s e s1 hP hs => System.step_nonempty s s1 e hP hs) events _ s
      (by simp [System.start]) h
  · intro hq s1 h1
    rcases System.step_cases s s1 _ h1 with
      ⟨p, he, -⟩ | ⟨p, he, -⟩ | ⟨now, he, -⟩ | ⟨-, hc, -, -, rfl⟩ |
      ⟨-, hc, -, hq1, rfl⟩ | ⟨arr, p, q, he, -⟩ | ⟨k, arr, p, q, he, -⟩
    · cases he
    · cases he
    · cases he
    · exact ⟨rfl, hc⟩
    · exact absurd hq hq1
    · cases he
    · cases he

/-- The run `burstRun` delivers the single batch of both matches, and C9 applies to it. -/
theorem C9_no_empty_batch_witness :
    ((System.start (FindGitReposWorker.new "/r" ⟨[]⟩ 0 0)).run burstRun).map System.observe
      = some (true, [["/r/a/.git", "/r/b/.git"]], ["/r/a/.git", "/r/b/.git"], []) ∧
    [] ∉ (System.mk ⟨"/r", ⟨[]⟩, 0, 0, 0, ["/r/a/.git", "/r/b/.git"]⟩ .idle none
      [["/r/a/.git", "/r/b/.git"]]).delivered :=
  ⟨by decide,
   (C9_no_empty_batch (FindGitReposWorker.new "/r" ⟨[]⟩ 0 0) burstRun
      (System.mk ⟨"/r", ⟨[]⟩, 0, 0, 0, ["/r/a/.git", "/r/b/.git"]⟩ .idle none
        [["/r/a/.git", "/r/b/.git"]]) (by decide)).1⟩

/-- C10 (order-preserving delivery): in every interleaving, at every point, the
batches delivered so far, then the array of the delivery lambda in progress, then
the queue, are together the result list followed by the match being recorded; so
between scanner steps and between deliveries the delivered batches followed by the
queue are exactly the result list; and the delivered batches, concatenated, are a
prefix of the result list of every later state in which the scanner is between
matches, the final one included. -/
theorem C10_order_preserving (path : String) (T : Nat) (now : Int)
    (events more : List Event) (s s2 : System)
    (h : (System.start (FindGitReposWorker.new path ⟨[]⟩ T now)).run events = some s)
    (h2 : s.run more = some s2) (hidle : s2.scanner = .idle) :
    s.delivered.flatten ++ s.inflight ++ s.worker.progressQueue.items
      = s.worker.repositories ++ s.pending ∧
    (s.pending = [] → s.callback = none →
      s.delivered.flatten ++ s.worker.progressQueue.items = s.worker.repositories) ∧
    s.delivered.flatten <+: s2.worker.OnOK := by
  have inv : ∀ (es : List Event) (t : System),
      (System.start (FindGitReposWorker.new path ⟨[]⟩ T now)).run es = some t →
      t.delivered.flatten ++ t.inflight ++ t.worker.progressQueue.items
        = t.worker.repositories ++ t.pending := fun es t ht =>
    System.run_induction
      (fun t => t.delivered.flatten ++ t.inflight ++ t.worker.progressQueue.items
        = t.worker.repositories ++ t.pending)
      (fun a e b hP hs => System.step_order a b e hP hs) es _ t
      (by simp [System.start, System.inflight, System.pending, FindGitReposWorker.new]) ht
  have hs := inv events s h
  refine ⟨hs, ?_, ?_⟩
  · intro hp hc
    simpa [System.inflight, hc, hp] using hs
  · have h12 : (System.start (FindGitReposWorker.new path ⟨[]⟩ T now)).run (events ++ more)
        = some s2 := by
      rw [System.run_append, h]; exact h2
    have hs2 := inv (events ++ more) s2 h12
    simp only [System.pending, hidle, List.append_nil] at hs2
    rw [OnOK_eq, ← hs2]
    refine (System.run_delivered_prefix more s s2 h2).trans ?_
    rw [List.append_assoc]
    exact List.prefix_append _ _

/-- C10 applied to the first five events of `lateMatchRun` followed by the other three. -/
theorem C10_order_preserving_witness :
    ((System.start (FindGitReposWorker.new "/r" ⟨[]⟩ 1000 0)).run (lateMatchRun.take 5)).map
        System.observe = some (true, [["/r/a/.git"]], ["/r/a/.git"], []) ∧
    ["/r/a/.git"] <+: ["/r/a/.git", "/r/b/.git"] :=
  ⟨by decide,
   (C10_order_preserving "/r" 1000 0 (lateMatchRun.take 5) (lateMatchRun.drop 5)
      (System.mk ⟨"/r", ⟨[]⟩, 0, 1000, 5000000, ["/r/a/.git"]⟩ .idle none [["/r/a/.git"]])
      (System.mk ⟨"/r", ⟨["/r/b/.git"]⟩, 0, 1000, 5000000, ["/r/a/.git", "/r/b/.git"]⟩ .idle
        none [["/r/a/.git"]])
      (by decide) (by decide) (by decide)).2.2⟩

/-- C3, the claim as stated fails: with an interval of 1000 ms the scan of `/r` finds
`/r/a/.git`, which is delivered, and one millisecond later `/r/b/.git`, whose throttle
check schedules nothing.  The scan is complete and no delivery is scheduled or
running, yet the batches delivered are not the result list: `/r/b/.git` stays in the
queue. -/
theorem C3_counterexample :
    (Posix.Execute Posix.twoRepositories (fun k => 4000000 + (k : Int) * 1000000) 3
        (FindGitReposWorker.new "/r" ⟨[]⟩ 1000 0)).map (fun w => w.OnOK)
      = some ["/r/a/.git", "/r/b/.git"] ∧
    ((System.start (FindGitReposWorker.new "/r" ⟨[]⟩ 1000 0)).run lateMatchRun).map
        System.observe
      = some (true, [["/r/a/.git"]], ["/r/a/.git", "/r/b/.git"], ["/r/b/.git"]) ∧
    [["/r/a/.git"]].flatten ≠ ["/r/a/.git", "/r/b/.git"] := by
  refine ⟨by decide, by decide, by decide⟩

/-- C3, amended: in every interleaving, once the scan is between matches and no
delivery lambda is scheduled or running, the batches delivered followed by the paths
still queued are the list `OnOK` resolves with (`OnOK` itself schedules and drains
nothing); with interval 0 the queue is then empty, so the batches delivered,
concatenated in delivery order, are exactly the resolved list. -/
theorem C3_consistency (path : String) (T : Nat) (now : Int) (events : List Event)
    (s : System)
    (h : (System.start (FindGitReposWorker.new path ⟨[]⟩ T now)).run events = some s)
    (hq : s.Quiescent) :
    s.delivered.flatten ++ s.worker.progressQueue.items = s.worker.OnOK ∧
    (T = 0 → s.worker.progressQueue.items = [] ∧ s.delivered.flatten = s.worker.OnOK) := by
  obtain ⟨hidle, hpc, hcb⟩ := hq
  have hord : s.delivered.flatten ++ s.inflight ++ s.worker.progressQueue.items
      = s.worker.repositories ++ s.pending :=
    System.run_induction
      (fun t => t.delivered.flatten ++ t.inflight ++ t.worker.progressQueue.items
        = t.worker.repositories ++ t.pending)
      (fun a e b hP hs => System.step_order a b e hP hs) events _ s
      (by simp [System.start, System.inflight, System.pending, FindGitReposWorker.new]) h
  simp only [System.inflight, System.pending, hidle, hcb, List.append_nil] at hord
  rw [OnOK_eq]
  refine ⟨hord, ?_⟩
  intro hT
  subst hT
  have hdr : s.worker.throttleTimeoutMS = 0 ∧ (s.worker.progressCallback = 0 →
      s.worker.progressQueue.items.length ≤ s.remaining + s.unchecked) :=
    System.run_induction
      (fun t => t.worker.throttleTimeoutMS = 0 ∧ (t.worker.progressCallback = 0 →
        t.worker.progressQueue.items.length ≤ t.remaining + t.unchecked))
      (fun a e b hP hs =>
        ⟨(System.step_throttleTimeoutMS a b e hs).trans hP.1,
          System.step_drained a b e hP.1 hP.2 hs⟩) events _ s
      (by simp [System.start, FindGitReposWorker.new]) h
  have hlen := hdr.2 hpc
  simp only [System.remaining, System.unchecked, hidle, hcb, Nat.add_zero,
    Nat.le_zero_eq] at hlen
  have hnil : s.worker.progressQueue.items = [] := List.length_eq_zero.mp hlen
  refine ⟨hnil, ?_⟩
  rw [hnil, List.append_nil] at hord
  exact hord

/-- C3 amended, applied to `burstRun` (interval 0). -/
theorem C3_consistency_witness :
    [["/r/a/.git", "/r/b/.git"]].flatten
      = (FindGitReposWorker.mk "/r" ⟨[]⟩ 0 0 0 ["/r/a/.git", "/r/b/.git"]).OnOK :=
  ((C3_consistency "/r" 0 0 burstRun
    (System.mk ⟨"/r", ⟨[]⟩, 0, 0, 0, ["/r/a/.git", "/r/b/.git"]⟩ .idle none
      [["/r/a/.git", "/r/b/.git"]]) (by decide) (by decide)).2 rfl).2

/-! ## Theorems: the entry point -/

/-- C5, the claim as stated fails in its last clause and in (e): a call with
`throttleTimeoutMS: 0.5` starts a scan whose interval is 0, not 0.5; and a call with
`throttleTimeoutMS: NaN`, a number that is not in `[0, 60000]`, is not rejected. -/
theorem C5_counterexample :
    FindGitRepos [.string "/r", .function [],
        .object [("throttleTimeoutMS", .number (.finite (1 / 2)))]] 0
      = .queued (FindGitReposWorker.new "/r" ⟨[]⟩ 0 0) ∧
    (((FindGitReposWorker.new "/r" ⟨[]⟩ 0 0).throttleTimeoutMS : ℚ) ≠ 1 / 2) ∧
    FindGitRepos [.string "/r", .function [],
        .object [("throttleTimeoutMS", .number .nan)]] 0
      = .queued (FindGitReposWorker.new "/r" ⟨[]⟩ 0 0) := by
  refine ⟨?_, ?_, ?_⟩
  · simp [FindGitRepos, Value.IsFunction, Value.IsObject, Value.Get, Value.Has,
      Value.properties, Value.IsNumber, JsNumber.ltZero, JsNumber.gt60000,
      JsNumber.Uint32Value, List.lookup]
    norm_num
    decide
  · simp [FindGitReposWorker.new]
  · simp [FindGitRepos, Value.IsFunction, Value.IsObject, Value.Get, Value.Has,
      Value.properties, Value.IsNumber, JsNumber.ltZero, JsNumber.gt60000,
      JsNumber.Uint32Value, List.lookup]

theorem Uint32Value_eq_floor (q : ℚ) (h0 : 0 ≤ q) (h1 : q ≤ 60000) :
    (JsNumber.finite q).Uint32Value = ⌊q⌋.toNat := by
  simp only [JsNumber.Uint32Value]
  have hnum : 0 ≤ q.num := Rat.num_nonneg.mpr h0
  rw [Int.tdiv_eq_ediv hnum (Int.ofNat_nonneg _), ← Rat.floor_def]
  have hf0 : 0 ≤ ⌊q⌋ := Int.floor_nonneg.mpr h0
  have hf1 : ⌊q⌋ ≤ 60000 := by
    have : ⌊q⌋ ≤ ⌊(60000 : ℚ)⌋ := Int.floor_le_floor h1
    simpa using this
  rw [Int.emod_eq_of_lt hf0 (by omega)]

theorem JsNumber.outOfRange_iff (q : ℚ) :
    ((JsNumber.finite q).ltZero = true ∨ (JsNumber.finite q).gt60000 = true) ↔
      ¬ (0 ≤ q ∧ q ≤ 60000) := by
  simp only [JsNumber.ltZero, JsNumber.gt60000, decide_eq_true_eq, not_and, not_le]
  constructor
  · rintro (h | h) h0
    · exact absurd h0 (not_le.mpr h)
    · exact h
  · intro h
    by_cases h0 : 0 ≤ q
    · exact Or.inr (h h0)
    · exact Or.inl (not_le.mp h0)

/-- What `FindGitRepos` does with every argument list, in the terms of its own tests. -/
theorem FindGitRepos_outcome (info : List Value) (now : Int) :
    ((∃ message, FindGitRepos info now = .rejected message) ↔
      (rootMissing info ∨ callbackMissing info ∨ optionsNotObject info ∨
        throttleNotNumber info ∨ throttleRejected info)) ∧
    (¬ (rootMissing info ∨ callbackMissing info ∨ optionsNotObject info ∨
        throttleNotNumber info ∨ throttleRejected info) →
      ∃ root, info[0]? = some (.string root) ∧
        FindGitRepos info now
          = .queued (FindGitReposWorker.new root ⟨[]⟩ (requestedThrottle info) now)) ∧
    (∀ q : ℚ, ((JsNumber.finite q).ltZero = true ∨ (JsNumber.finite q).gt60000 = true) ↔
      ¬ (0 ≤ q ∧ q ≤ 60000)) ∧
    (∀ q : ℚ, 0 ≤ q → q ≤ 60000 → (JsNumber.finite q).Uint32Value = ⌊q⌋.toNat) := by
  suffices hmain : ((∃ message, FindGitRepos info now = .rejected message) ↔
      (rootMissing info ∨ callbackMissing info ∨ optionsNotObject info ∨
        throttleNotNumber info ∨ throttleRejected info)) ∧
    (¬ (rootMissing info ∨ callbackMissing info ∨ optionsNotObject info ∨
        throttleNotNumber info ∨ throttleRejected info) →
      ∃ root, info[0]? = some (.string root) ∧
        FindGitRepos info now
          = .queued (FindGitReposWorker.new root ⟨[]⟩ (requestedThrottle info) now)) from
    ⟨hmain.1, hmain.2, JsNumber.outOfRange_iff, Uint32Value_eq_floor⟩
  rcases info with _ | ⟨v0, _ | ⟨v1, _ | ⟨v2, rest⟩⟩⟩
  · simp [FindGitRepos, rootMissing]
  · cases v0 <;> simp [FindGitRepos, rootMissing, callbackMissing]
    split_ifs <;> exact ⟨_, rfl⟩
  · cases v0 <;> simp [FindGitRepos, rootMissing, callbackMissing]
    rename_i root
    by_cases hr : root = ""
    · simp [hr]
    · cases v1 <;>
        simp [hr, Value.IsFunction, optionsNotObject, throttleNotNumber, throttleRejected,
          requestedThrottle]
  · cases v0 <;> simp [FindGitRepos, rootMissing, callbackMissing]
    rename_i root
    by_cases hr : root = ""
    · simp [hr]
    · cases v1 <;>
        simp [hr, Value.IsFunction, optionsNotObject, throttleNotNumber, throttleRejected,
          requestedThrottle]
      generalize v2.Get "throttleTimeoutMS" = g
      generalize v2.Has "throttleTimeoutMS" = hasIt
      generalize v2.IsObject = isObj
      cases isObj <;> cases hasIt <;> cases g <;> simp [Value.IsNumber]
      all_goals
        rename_i n
        cases hl : n.ltZero <;> cases hg : n.gt60000 <;> simp

theorem throttleRejected_iff (info : List Value) (hnan : ¬ throttleIsNaN info) :
    throttleRejected info ↔ throttleOutOfRange info := by
  unfold throttleRejected throttleOutOfRange
  unfold throttleIsNaN at hnan
  cases h2 : (info[2]? : Option Value) with
  | none => simp
  | some v =>
    simp only [h2] at hnan ⊢
    generalize v.Get "throttleTimeoutMS" = g at hnan ⊢
    constructor
    · rintro ⟨n, rfl, hn⟩
      refine ⟨n, rfl, ?_⟩
      cases n with
      | finite q => exact (JsNumber.outOfRange_iff q).mp hn
      | nan => exact absurd trivial hnan
      | posInf => exact fun hf => hf
      | negInf => exact fun hf => hf
    · rintro ⟨n, rfl, hn⟩
      refine ⟨n, rfl, ?_⟩
      cases n with
      | finite q => exact (JsNumber.outOfRange_iff q).mpr hn
      | nan => exact absurd trivial hnan
      | posInf => right; rfl
      | negInf => left; rfl

/-- C5, amended: for every argument list whose `options.throttleTimeoutMS` is not
`NaN`, `FindGitRepos` returns a rejected promise and queues no worker if and only if
(a) the root argument is missing, not a string or empty, or (b) the progress callback
is missing or not a function, or (c) a third argument is present and not an object,
or (d) `options.throttleTimeoutMS` is present and not a number, or (e) it is a number
outside `[0, 60000]`; in every other case a worker is queued for the given root whose
interval is the `uint32_t` conversion of the given `throttleTimeoutMS`, that is its
integer part, or 0 when it is absent. -/
theorem C5_configuration (info : List Value) (now : Int) (hnan : ¬ throttleIsNaN info) :
    ((∃ message, FindGitRepos info now = .rejected message) ↔
      (rootMissing info ∨ callbackMissing info ∨ optionsNotObject info ∨
        throttleNotNumber info ∨ throttleOutOfRange info)) ∧
    (¬ (rootMissing info ∨ callbackMissing info ∨ optionsNotObject info ∨
        throttleNotNumber info ∨ throttleOutOfRange info) →
      ∃ root, info[0]? = some (.string root) ∧
        FindGitRepos info now
          = .queued (FindGitReposWorker.new root ⟨[]⟩ (requestedThrottle info) now)) ∧
    (∀ q : ℚ, 0 ≤ q → q ≤ 60000 → (JsNumber.finite q).Uint32Value = ⌊q⌋.toNat) := by
  have h := FindGitRepos_outcome info now
  rw [throttleRejected_iff info hnan] at h
  exact ⟨h.1, h.2.1, h.2.2.2⟩

/-- C5 amended, applied to a call with `throttleTimeoutMS: 70000`: it is rejected. -/
theorem C5_configuration_witness :
    ∃ message, FindGitRepos [.string "/r", .function [],
        .object [("throttleTimeoutMS", .number (.finite 70000))]] 0 = .rejected message :=
  (C5_configuration [.string "/r", .function [],
      .object [("throttleTimeoutMS", .number (.finite 70000))]] 0
    (by simp [throttleIsNaN, Value.Get, Value.properties, List.lookup])).1.mpr
    (Or.inr (Or.inr (Or.inr (Or.inr
      (by
        simp only [throttleOutOfRange, Value.Get, Value.properties]
        refine ⟨.finite 70000, by simp [List.lookup], ?_⟩
        simp only [JsNumber.inRange]
        norm_num)))))

/-! ## Theorems: the root path -/

theorem Win32.popTrailingBackslashes_eq_empty (p : String)
    (h : ∀ c ∈ p.data, c = '\\') : Win32.popTrailingBackslashes p = "" := by
  unfold Win32.popTrailingBackslashes
  have : p.data.rdropWhile (fun c => c == '\\') = [] := by
    rw [List.rdropWhile_eq_nil_iff]
    intro c hc
    simp [h c hc]
  rw [this]

/-- C7, the claim as stated fails: the root `/`, made only of separators, is accepted
by `FindGitRepos`; the POSIX scan does not normalize it, lists `//` and, on a file
system whose root directory holds `.git`, records the match `//.git` and schedules a
delivery.  The root `""` starts no scan at all: the call is rejected, not resolved
with an empty list. -/
theorem C7_counterexample :
    FindGitRepos [.string "/", .function []] 0
      = .queued (FindGitReposWorker.new "/" ⟨[]⟩ 0 0) ∧
    (Posix.Execute Posix.repositoryAtRoot (fun _ => 0) 1
        (FindGitReposWorker.new "/" ⟨[]⟩ 0 0)).map (fun w => (w.OnOK, w.progressCallback))
      = some (["//.git"], 1) ∧
    FindGitRepos [.string "", .function []] 0
      = .rejected "Must provide non-empty starting path as first argument." := by
  refine ⟨by decide, by decide, by decide⟩

/-- C7, amended: a call whose root is `""` is rejected whatever the other arguments
are, so it starts no scan and makes no `onProgress` call; and in the Windows body a
root that is not an NT path and is made only of backslashes normalizes to the empty
path, and `Execute` returns at once, on every file system and with no fuel at all:
the worker is unchanged (no match, no delivery scheduled) and no directory is
listed. -/
theorem C7_empty_root (rest : List Value) (now : Int) (h : Win32.WindowsHelpers)
    (fs : Win32.FileSystem) (clock : Nat → Int) (fuel : Nat) (w : FindGitReposWorker)
    (hnt : h.isNtPath (h.convertMultiByteToWideChar w.path) = false)
    (hall : ∀ c ∈ (h.convertMultiByteToWideChar w.path).data, c = '\\') :
    FindGitRepos (.string "" :: rest) now
      = .rejected "Must provide non-empty starting path as first argument." ∧
    Win32.Execute h fs clock fuel w = some w ∧
    Win32.Execute h fs clock 0 w = some w := by
  refine ⟨by simp [FindGitRepos], ?_, ?_⟩
  · simp [Win32.Execute, hnt, Win32.popTrailingBackslashes_eq_empty _ hall]
  · simp [Win32.Execute, hnt, Win32.popTrailingBackslashes_eq_empty _ hall]

/-- C7 amended, applied to the Windows root `\\` (two backslashes). -/
theorem C7_empty_root_witness :
    FindGitRepos [.string "", .function []] 0
      = .rejected "Must provide non-empty starting path as first argument." ∧
    Win32.Execute Win32.plainHelpers Win32.linkedRepository (fun _ => 0) 0
        (FindGitReposWorker.new "\\\\" ⟨[]⟩ 0 0)
      = some (FindGitReposWorker.new "\\\\" ⟨[]⟩ 0 0) :=
  ⟨(C7_empty_root [.function []] 0 Win32.plainHelpers Win32.linkedRepository (fun _ => 0) 0
      (FindGitReposWorker.new "\\\\" ⟨[]⟩ 0 0) (by decide) (by decide)).1,
   (C7_empty_root [.function []] 0 Win32.plainHelpers Win32.linkedRepository (fun _ => 0) 0
      (FindGitReposWorker.new "\\\\" ⟨[]⟩ 0 0) (by decide) (by decide)).2.1⟩

/-! ## Theorems: symbolic links -/

/-- C6, the Windows body at the failing input: `C:\root\lnk` is a symbolic link to a
directory holding `.git`.  The Windows `Execute` appends the link to the worklist,
lists it and records `C:\root\lnk\.git`; the POSIX `Execute` on the same tree records
nothing, whether the listing reports the link or the type is unknown and
`uv_fs_lstat` answers. -/
theorem C6_windows_follows_links :
    (Win32.Execute Win32.plainHelpers Win32.linkedRepository (fun _ => 0) 2
        (FindGitReposWorker.new "C:\\root" ⟨[]⟩ 0 0)).map (fun w => w.OnOK)
      = some ["C:\\root\\lnk\\.git"] ∧
    (Posix.Execute (Posix.linkedRepository true) (fun _ => 0) 2
        (FindGitReposWorker.new "/root" ⟨[]⟩ 0 0)).map (fun w => w.OnOK) = some [] ∧
    (Posix.Execute (Posix.linkedRepository false) (fun _ => 0) 2
        (FindGitReposWorker.new "/root" ⟨[]⟩ 0 0)).map (fun w => w.OnOK) = some [] := by
  refine ⟨by decide, by decide, by decide⟩

/-! ## Theorems: the breadth-first walk of a tree -/

theorem foldl_recordMatch_repositories (clock : Nat → Int) (ms : List String) :
    ∀ w : FindGitReposWorker,
      (ms.foldl (FindGitReposWorker.recordMatch clock) w).repositories = w.repositories ++ ms := by
  induction ms with
  | nil => intro w; simp
  | cons m ms ih =>
    intro w
    simp only [List.foldl_cons, ih, recordMatch_repositories, List.append_assoc,
      List.singleton_append]

theorem Entries.children_size (pf : Platform) (path : String) (es : Entries) :
    ((es.children pf path).map (fun it => 1 + it.2.size)).sum ≤ es.size := by
  induction es with
  | nil => simp [Entries.children, Entries.size]
  | cons name kind tk content rest _ ih =>
    simp only [Entries.children, Entries.size, List.map_append, List.sum_append]
    split_ifs
    · simp only [List.map_cons, List.map_nil, List.sum_cons, List.sum_nil]
      omega
    · simp only [List.map_nil, List.sum_nil]
      omega

theorem Entries.children_conform (pf : Platform) (visit : String → List String × List String)
    (path : String) (es : Entries) (h : es.ConformsBelow pf visit path) :
    ∀ it ∈ es.children pf path,
      visit it.1 = it.2.summary pf it.1 ∧ it.2.ConformsBelow pf visit it.1 := by
  induction es with
  | nil => intro it hit; simp [Entries.children] at hit
  | cons name kind tk content rest _ ih =>
    intro it hit
    simp only [Entries.children, List.mem_append] at hit
    obtain ⟨h1, h2⟩ := h
    rcases hit with hit | hit
    · split_ifs at hit with hc
      · simp only [List.mem_singleton] at hit
        subst hit
        simp only [Bool.and_eq_true, bne_iff_ne, ne_eq] at hc
        exact h1 hc.1 hc.2
      · simp at hit
    · exact ih h2 it hit

theorem Entries.foundBelow_eq (pf : Platform) (path : String) (es : Entries) :
    es.foundBelow pf path = (es.children pf path).flatMap (fun it => it.2.found pf it.1) := by
  induction es with
  | nil => simp [Entries.foundBelow, Entries.children]
  | cons name kind tk content rest _ ih =>
    simp only [Entries.foundBelow, Entries.children, List.flatMap_append, ih]
    split_ifs <;> simp [Entries.found, *]

/-- The loop on a worklist whose directories are described by trees: with one unit of
fuel per directory it ends, and the result list is the old one followed by the
matches of the trees, in some order. -/
theorem bfs_found (pf : Platform) (visit : String → List String × List String)
    (clock : Nat → Int) :
    ∀ (fuel : Nat) (items : List (String × Entries)) (w : FindGitReposWorker),
      (∀ it ∈ items, visit it.1 = it.2.summary pf it.1 ∧ it.2.ConformsBelow pf visit it.1) →
      (items.map (fun it => 1 + it.2.size)).sum ≤ fuel →
      ∃ w1, bfs visit clock fuel (items.map Prod.fst) w = some w1 ∧
        List.Perm w1.repositories
          (w.repositories ++ items.flatMap (fun it => it.2.found pf it.1)) := by
  intro fuel
  induction fuel with
  | zero =>
    intro items w _ hsize
    cases items with
    | nil => exact ⟨w, by simp [bfs], by simp⟩
    | cons it its =>
      simp only [List.map_cons, List.sum_cons] at hsize
      omega
  | succ fuel ih =>
    intro items w hconf hsize
    cases items with
    | nil => exact ⟨w, by simp [bfs], by simp⟩
    | cons it its =>
      obtain ⟨path, es⟩ := it
      have hit := hconf (path, es) (List.mem_cons_self _ _)
      simp only [List.map_cons, List.sum_cons] at hsize
      simp only [List.map_cons, bfs, hit.1]
      by_cases hg : es.hasGit pf = true
      · simp only [Entries.summary, hg, if_true, List.append_nil]
        obtain ⟨w1, hw1, hperm⟩ := ih its
          ((pf.emit path es).foldl (FindGitReposWorker.recordMatch clock) w)
          (fun it hit => hconf it (List.mem_cons_of_mem _ hit)) (by omega)
        refine ⟨w1, hw1, ?_⟩
        rw [foldl_recordMatch_repositories] at hperm
        simpa [Entries.found, hg, List.append_assoc] using hperm
      · simp only [Entries.summary, hg, if_false, List.foldl_nil]
        have hchild := Entries.children_conform pf visit path es hit.2
        have hcs := Entries.children_size pf path es
        obtain ⟨w1, hw1, hperm⟩ := ih (its ++ es.children pf path) w
          (fun it hit => by
            rcases List.mem_append.mp hit with h | h
            · exact hconf it (List.mem_cons_of_mem _ h)
            · exact hchild it h)
          (by simp only [List.map_append, List.sum_append]; omega)
        refine ⟨w1, by simpa using hw1, ?_⟩
        refine hperm.trans ?_
        have hf : es.found pf path
            = (es.children pf path).flatMap (fun it => it.2.found pf it.1) := by
          simp only [Entries.found, hg, Bool.false_eq_true, if_false]
          exact Entries.foundBelow_eq pf path es
        rw [List.flatMap_append, List.flatMap_cons, hf]
        exact List.Perm.append_left _ List.perm_append_comm


theorem Entries.visitedBelow_subset (pf : Platform) :
    ∀ (es : Entries) (path : String) (D : String × Entries),
      D ∈ es.visitedBelow pf path → D ∈ es.descendants pf path := by
  intro es
  induction es with
  | nil => intro path D hD; simp [Entries.visitedBelow] at hD
  | cons name kind tk content rest ihc ihr =>
    intro path D hD
    simp only [Entries.visitedBelow, List.mem_append] at hD
    simp only [Entries.descendants, List.mem_append]
    rcases hD with hD | hD
    · left
      split_ifs at hD with hc hg
      · simp only [Bool.and_eq_true] at hc
        simp only [hc.1, if_true]
        simp only [List.mem_singleton] at hD
        exact List.mem_cons.mpr (Or.inl hD)
      · simp only [Bool.and_eq_true] at hc
        simp only [hc.1, if_true]
        simp only [List.mem_cons] at hD ⊢
        rcases hD with hD | hD
        · exact Or.inl hD
        · exact Or.inr (ihc _ D hD)
      · simp at hD
    · exact Or.inr (ihr path D hD)

theorem Entries.descendants_trans (pf : Platform) :
    ∀ (es : Entries) (path : String) (D : String × Entries),
      D ∈ es.descendants pf path →
      ∀ Q ∈ D.2.descendants pf D.1, Q ∈ es.descendants pf path := by
  intro es
  induction es with
  | nil => intro path D hD; simp [Entries.descendants] at hD
  | cons name kind tk content rest ihc ihr =>
    intro path D hD Q hQ
    simp only [Entries.descendants, List.mem_append] at hD ⊢
    rcases hD with hD | hD
    · left
      split_ifs at hD with hc
      · simp only [hc, if_true]
        simp only [List.mem_cons] at hD ⊢
        rcases hD with hD | hD
        · subst hD
          exact Or.inr hQ
        · exact Or.inr (ihc _ D hD Q hQ)
      · simp at hD
    · exact Or.inr (ihr path D hD Q hQ)

/-- Pruning on the tree: when the paths of the directories are pairwise distinct,
no directory strictly below a listed directory that holds `.git` is listed. -/
theorem Entries.pruned (pf : Platform) :
    ∀ (es : Entries) (path : String),
      ((es.descendants pf path).map Prod.fst).Nodup →
      ∀ D ∈ es.visitedBelow pf path, D.2.hasGit pf = true →
      ∀ Q ∈ D.2.descendants pf D.1, Q.1 ∉ (es.visitedBelow pf path).map Prod.fst := by
  intro es
  induction es with
  | nil => intro path _ D hD; simp [Entries.visitedBelow] at hD
  | cons name kind tk content rest ihc ihr =>
    intro path hnd D hD hg Q hQ hmem
    have sub : ∀ (e : Entries) (p : String) (x : String),
        x ∈ (e.visitedBelow pf p).map Prod.fst → x ∈ (e.descendants pf p).map Prod.fst := by
      intro e p x hx
      obtain ⟨X, hX, rfl⟩ := List.mem_map.mp hx
      exact List.mem_map_of_mem _ (Entries.visitedBelow_subset pf e p X hX)
    cases htk : pf.traversed kind with
    | false =>
      simp only [Entries.descendants, Entries.visitedBelow, htk, Bool.false_and,
        Bool.false_eq_true, if_false, List.nil_append] at hnd hD hmem
      exact ihr path hnd D hD hg Q hQ hmem
    | true =>
      simp only [Entries.descendants, htk, if_true, List.cons_append, List.map_cons,
        List.map_append, List.nodup_cons, List.mem_append, not_or, List.nodup_append] at hnd
      obtain ⟨⟨hq1, hq2⟩, hc, hr, hdis⟩ := hnd
      by_cases hn : name = ".git"
      · simp only [Entries.visitedBelow, htk, hn, bne_self_eq_false, Bool.and_false,
          Bool.false_eq_true, if_false, List.nil_append] at hD hmem
        exact ihr path hr D hD hg Q hQ hmem
      · have hne : (name != ".git") = true := by simpa using hn
        simp only [Entries.visitedBelow, htk, hne, Bool.and_self, if_true, List.cons_append,
          List.mem_cons, List.mem_append, List.map_cons, List.map_append] at hD hmem
        rcases hD with hD | hD | hD
        · -- the staged child itself holds `.git`
          subst hD
          simp only [hg, if_true, List.map_nil, List.not_mem_nil, false_or] at hmem
          have hQ1 : Q.1 ∈ (content.descendants pf (path ++ pf.sep ++ name)).map Prod.fst :=
            List.mem_map_of_mem _ hQ
          rcases hmem with hmem | hmem
          · exact hq1 (hmem ▸ hQ1)
          · exact hdis hQ1 (sub rest path _ hmem)
        · -- the directory is below the staged child
          by_cases hgc : content.hasGit pf = true
          · simp [hgc] at hD
          · simp only [hgc, if_false] at hD hmem
            have hDd := Entries.visitedBelow_subset pf content _ D hD
            have hQ1 : Q.1 ∈ (content.descendants pf (path ++ pf.sep ++ name)).map Prod.fst :=
              List.mem_map_of_mem _ (Entries.descendants_trans pf content _ D hDd Q hQ)
            rcases hmem with hmem | hmem | hmem
            · exact hq1 (hmem ▸ hQ1)
            · exact ihc _ hc D hD hg Q hQ hmem
            · exact hdis hQ1 (sub rest path _ hmem)
        · -- the directory is below a later entry
          have hDd := Entries.visitedBelow_subset pf rest _ D hD
          have hQ1 : Q.1 ∈ (rest.descendants pf path).map Prod.fst :=
            List.mem_map_of_mem _ (Entries.descendants_trans pf rest _ D hDd Q hQ)
          rcases hmem with hmem | hmem | hmem
          · exact hq2 (hmem ▸ hQ1)
          · by_cases hgc : content.hasGit pf = true
            · simp [hgc] at hmem
            · simp only [hgc, if_false] at hmem
              exact hdis (sub content _ _ hmem) hQ1
          · exact ihr path hr D hD hg Q hQ hmem


/-- A match recorded below `path` is recorded in a listed directory that holds
`.git`, and every match of such a directory is recorded. -/
theorem Entries.mem_foundBelow (pf : Platform) (m : String) :
    ∀ (es : Entries) (path : String),
      m ∈ es.foundBelow pf path ↔
        ∃ A ∈ es.visitedBelow pf path, A.2.hasGit pf = true ∧ m ∈ pf.emit A.1 A.2 := by
  intro es
  induction es with
  | nil => intro path; simp [Entries.foundBelow, Entries.visitedBelow]
  | cons name kind tk content rest ihc ihr =>
    intro path
    simp only [Entries.foundBelow, Entries.visitedBelow, List.mem_append, ihr path]
    cases hc : (pf.traversed kind && name != ".git") with
    | true =>
      simp only [if_true]
      cases hg : content.hasGit pf with
      | true =>
        simp only [if_true, List.mem_singleton]
        constructor
        · rintro (h | ⟨A, hA, h⟩)
          · exact ⟨_, Or.inl rfl, hg, h⟩
          · exact ⟨A, Or.inr hA, h⟩
        · rintro ⟨A, hA | hA, h⟩
          · subst hA; exact Or.inl h.2
          · exact Or.inr ⟨A, hA, h⟩
      | false =>
        simp only [Bool.false_eq_true, if_false, ihc, List.mem_cons]
        constructor
        · rintro (⟨A, hA, h⟩ | ⟨A, hA, h⟩)
          · exact ⟨A, Or.inl (Or.inr hA), h⟩
          · exact ⟨A, Or.inr hA, h⟩
        · rintro ⟨A, (hA | hA) | hA, h⟩
          · subst hA; rw [hg] at h; exact absurd h.1 (by simp)
          · exact Or.inl ⟨A, hA, h⟩
          · exact Or.inr ⟨A, hA, h⟩
    | false =>
      simp only [Bool.false_eq_true, if_false, List.not_mem_nil, false_or]

theorem Entries.mem_found (pf : Platform) (m : String) (es : Entries) (path : String) :
    m ∈ es.found pf path ↔
      ∃ A ∈ es.visited pf path, A.2.hasGit pf = true ∧ m ∈ pf.emit A.1 A.2 := by
  unfold Entries.found Entries.visited
  cases hg : es.hasGit pf with
  | true =>
    simp only [if_true, List.mem_singleton]
    constructor
    · intro h; exact ⟨_, rfl, hg, h⟩
    · rintro ⟨A, hA, h⟩; subst hA; exact h.2
  | false =>
    simp only [Bool.false_eq_true, if_false, List.mem_cons, Entries.mem_foundBelow]
    constructor
    · rintro ⟨A, hA, h⟩; exact ⟨A, Or.inr hA, h⟩
    · rintro ⟨A, hA | hA, h⟩
      · subst hA; rw [hg] at h; exact absurd h.1 (by simp)
      · exact ⟨A, hA, h⟩

/-- Completeness on the tree: a directory below `path` is listed when the directory
at `path` and every listed directory above it hold no `.git`. -/
theorem Entries.reached (pf : Platform) (D : String × Entries) :
    ∀ (es : Entries) (path : String),
      es.hasGit pf = false →
      D ∈ es.descendants pf path →
      (∀ A ∈ es.visitedBelow pf path, D ∈ A.2.descendants pf A.1 → A.2.hasGit pf = false) →
      D ∈ es.visitedBelow pf path := by
  intro es
  induction es with
  | nil => intro path _ hD; simp [Entries.descendants] at hD
  | cons name kind tk content rest ihc ihr =>
    intro path hng hD hanc
    simp only [Entries.hasGit, Bool.or_eq_false_iff] at hng
    obtain ⟨hng1, hng2⟩ := hng
    simp only [Entries.descendants, List.mem_append] at hD
    simp only [Entries.visitedBelow, List.mem_append] at hanc ⊢
    rcases hD with hD | hD
    · left
      cases htk : pf.traversed kind with
      | false => simp [htk] at hD
      | true =>
        have hne : (name != ".git") = true := by
          simp only [htk, Bool.true_and, beq_eq_false_iff_ne, ne_eq] at hng1
          simpa using hng1
        simp only [htk, if_true, List.mem_cons] at hD
        simp only [htk, hne, Bool.and_self, if_true, List.mem_cons] at hanc ⊢
        rcases hD with hD | hD
        · exact Or.inl hD
        · right
          have hgc : content.hasGit pf = false :=
            hanc _ (Or.inl (Or.inl rfl)) hD
          simp only [hgc, Bool.false_eq_true, if_false] at hanc ⊢
          exact ihc _ hgc hD (fun A hA => hanc A (Or.inl (Or.inr hA)))
    · right
      exact ihr path hng2 hD (fun A hA => hanc A (Or.inr hA))

theorem Entries.visited_subset (pf : Platform) (es : Entries) (path : String)
    (D : String × Entries) (hD : D ∈ es.visited pf path) :
    D ∈ (path, es) :: es.descendants pf path := by
  unfold Entries.visited at hD
  simp only [List.mem_cons] at hD ⊢
  rcases hD with hD | hD
  · exact Or.inl hD
  · split_ifs at hD
    · simp at hD
    · exact Or.inr (Entries.visitedBelow_subset pf es path D hD)

/-- Two directories of a list with pairwise distinct paths are the same directory
when their paths are equal. -/
theorem eq_of_fst_eq {l : List (String × Entries)} (hnd : (l.map Prod.fst).Nodup)
    {a b : String × Entries} (ha : a ∈ l) (hb : b ∈ l) (h : a.1 = b.1) : a = b := by
  induction l with
  | nil => simp at ha
  | cons x xs ih =>
    simp only [List.map_cons, List.nodup_cons] at hnd
    simp only [List.mem_cons] at ha hb
    rcases ha with ha | ha <;> rcases hb with hb | hb
    · rw [ha, hb]
    · exfalso; subst ha
      exact hnd.1 (h ▸ List.mem_map_of_mem _ hb)
    · exfalso; subst hb
      exact hnd.1 (h ▸ List.mem_map_of_mem _ ha)
    · exact ih hnd.2 ha hb


/-! ## Theorems: the POSIX body on a tree -/

theorem Posix.scandirNext_eq (fs : Posix.FileSystem) (clock : Nat → Int) (currentPath : String) :
    ∀ (entries : List Posix.uv_dirent_t) (temp : List String) (isGitRepo : Bool)
      (w : FindGitReposWorker),
      Posix.scandirNext fs clock currentPath entries temp isGitRepo w
        = (temp ++ Posix.staged fs currentPath entries,
            isGitRepo || !(Posix.recorded fs currentPath entries).isEmpty,
            (Posix.recorded fs currentPath entries).foldl
              (FindGitReposWorker.recordMatch clock) w) := by
  intro entries
  induction entries with
  | nil => intro temp g w; simp [Posix.scandirNext, Posix.staged, Posix.recorded]
  | cons e more ih =>
    intro temp g w
    have hskip : (if e.type = .UV_DIRENT_UNKNOWN then
          match fs.uv_fs_lstat (currentPath ++ "/" ++ e.name) with
          | none => true
          | some st_mode => !Posix.S_ISDIR st_mode || Posix.S_ISLNK st_mode
        else decide (e.type ≠ .UV_DIRENT_DIR)) = !Posix.taken fs currentPath e := by
      unfold Posix.taken
      split_ifs
      · cases fs.uv_fs_lstat (currentPath ++ "/" ++ e.name) with
        | none => rfl
        | some m => simp
      · simp
    simp only [Posix.scandirNext, hskip, Posix.staged, Posix.recorded]
    cases ht : Posix.taken fs currentPath e with
    | false => simp [ih]
    | true =>
      by_cases hn : e.name = ".git"
      · simp [ih, hn]
      · simp [ih, hn]

theorem Posix.executeLoop_eq_bfs (fs : Posix.FileSystem) (clock : Nat → Int) :
    ∀ (fuel : Nat) (foundPaths : List String) (w : FindGitReposWorker),
      Posix.executeLoop fs clock fuel foundPaths w
        = bfs (Posix.visit fs) clock fuel foundPaths w := by
  intro fuel
  induction fuel with
  | zero =>
    intro foundPaths w
    cases foundPaths <;> simp [Posix.executeLoop, bfs]
  | succ fuel ih =>
    intro foundPaths w
    cases foundPaths with
    | nil => simp [Posix.executeLoop, bfs]
    | cons currentPath foundPaths =>
      simp only [Posix.executeLoop, bfs, Posix.visit]
      cases hs : fs.uv_fs_scandir (currentPath ++ "/") with
      | none => simp [ih]
      | some entries =>
        simp only [Posix.scandirNext_eq, Bool.false_or, List.nil_append, Bool.not_not]
        cases hr : (Posix.recorded fs currentPath entries).isEmpty with
        | true =>
          have : Posix.recorded fs currentPath entries = [] := List.isEmpty_iff.mp hr
          simp [ih, this]
        | false => simp [ih]


theorem Posix.taken_dirent (fs : Posix.FileSystem) (path name : String) (kind : Kind)
    (typeKnown : Bool) (hl : Posix.stats fs (path ++ "/" ++ name) kind typeKnown = true) :
    Posix.taken fs path ⟨name, if typeKnown then kind.d_type else .UV_DIRENT_UNKNOWN⟩
      = (kind == .directory) := by
  simp only [Posix.stats, Bool.or_eq_true, Bool.and_eq_true, beq_iff_eq] at hl
  cases typeKnown with
  | true => cases kind <;> simp [Posix.taken, Kind.d_type]
  | false =>
    rcases hl with (hl | hl) | ⟨hk, hl⟩
    · cases hl
    · cases kind <;>
        simp [Posix.taken, hl, Kind.st_mode, Posix.S_ISDIR, Posix.S_ISLNK,
          Posix.S_IFMT, Posix.S_IFDIR, Posix.S_IFLNK, Posix.S_IFREG] <;> decide
    · subst hk
      simp [Posix.taken, hl]

theorem Posix.describesBelow_cons (fs : Posix.FileSystem) (path name : String) (kind : Kind)
    (typeKnown : Bool) (content rest : Entries)
    (h : Posix.describesBelow fs path (.cons name kind typeKnown content rest) = true) :
    Posix.stats fs (path ++ "/" ++ name) kind typeKnown = true ∧
    (kind = .directory →
      Posix.lists fs (path ++ "/" ++ name) content = true ∧
      Posix.describesBelow fs (path ++ "/" ++ name) content = true) ∧
    Posix.describesBelow fs path rest = true := by
  simp only [Posix.describesBelow, Bool.and_eq_true, Bool.or_eq_true,
    bne_iff_ne, ne_eq] at h
  obtain ⟨⟨h1, h2⟩, h3⟩ := h
  refine ⟨h1, ?_, h3⟩
  intro hk
  rcases h2 with h2 | h2
  · exact absurd hk h2
  · exact h2

theorem Posix.staged_dirents (fs : Posix.FileSystem) :
    ∀ (es : Entries) (path : String), Posix.describesBelow fs path es = true →
      Posix.staged fs path es.dirents = (es.children Posix.platform path).map Prod.fst := by
  intro es
  induction es with
  | nil => intro path _; simp [Posix.staged, Entries.dirents, Entries.children]
  | cons name kind tk content rest _ ihr =>
    intro path h
    obtain ⟨hl, -, hrest⟩ := Posix.describesBelow_cons fs path name kind tk content rest h
    simp only [Entries.dirents, Posix.staged, Entries.children, List.map_append,
      Posix.taken_dirent fs path name kind tk hl, ihr path hrest, Posix.platform]
    split_ifs <;> rfl

theorem Posix.recorded_dirents (fs : Posix.FileSystem) :
    ∀ (es : Entries) (path : String), Posix.describesBelow fs path es = true →
      Posix.recorded fs path es.dirents
        = es.gitPaths "/" (fun kind => kind == .directory) path := by
  intro es
  induction es with
  | nil => intro path _; simp [Posix.recorded, Entries.dirents, Entries.gitPaths]
  | cons name kind tk content rest _ ihr =>
    intro path h
    obtain ⟨hl, -, hrest⟩ := Posix.describesBelow_cons fs path name kind tk content rest h
    simp only [Entries.dirents, Posix.recorded, Entries.gitPaths,
      Posix.taken_dirent fs path name kind tk hl, ihr path hrest]

theorem Posix.gitPaths_isEmpty (path : String) (es : Entries) :
    (es.gitPaths "/" (fun kind => kind == .directory) path).isEmpty
      = !es.hasGit Posix.platform := by
  induction es with
  | nil => simp [Entries.gitPaths, Entries.hasGit]
  | cons name kind tk content rest _ ihr =>
    have ihr1 : (Entries.gitPaths "/" (fun kind => kind == Kind.directory) path rest).isEmpty
        = !Entries.hasGit Posix.platform rest := ihr
    simp only [Entries.gitPaths, Entries.hasGit]
    cases h : (kind == Kind.directory && name == ".git") with
    | true =>
      have h1 : (Posix.platform.traversed kind && name == ".git") = true := h
      simp [h1]
    | false =>
      have h1 : (Posix.platform.traversed kind && name == ".git") = false := h
      simp [h1, ihr1]

theorem Posix.visit_summary (fs : Posix.FileSystem) (path : String) (es : Entries)
    (hl : Posix.lists fs path es = true)
    (hb : Posix.describesBelow fs path es = true) :
    Posix.visit fs path = es.summary Posix.platform path := by
  simp only [Posix.lists, Bool.or_eq_true, Bool.and_eq_true, beq_iff_eq] at hl
  rcases hl with hs | ⟨hnil, hs⟩
  swap
  · subst hnil
    simp [Posix.visit, hs, Entries.summary, Entries.hasGit, Entries.children]
  unfold Posix.visit Entries.summary
  simp only [hs, Posix.recorded_dirents fs es path hb, Posix.staged_dirents fs es path hb,
    Posix.gitPaths_isEmpty]
  cases hg : es.hasGit Posix.platform with
  | true => simp [Posix.platform]
  | false =>
    have : es.gitPaths "/" (fun kind => kind == .directory) path = [] := by
      have := Posix.gitPaths_isEmpty path es
      rw [hg] at this
      exact List.isEmpty_iff.mp this
    simp [this]

theorem Posix.conformsBelow (fs : Posix.FileSystem) :
    ∀ (es : Entries) (path : String), Posix.describesBelow fs path es = true →
      es.ConformsBelow Posix.platform (Posix.visit fs) path := by
  intro es
  induction es with
  | nil => intro path _; trivial
  | cons name kind tk content rest ihc ihr =>
    intro path h
    obtain ⟨-, hdir, hrest⟩ := Posix.describesBelow_cons fs path name kind tk content rest h
    refine ⟨?_, ihr path hrest⟩
    intro htr _
    have hk : kind = .directory := by simpa [Posix.platform] using htr
    obtain ⟨hs, hb⟩ := hdir hk
    exact ⟨Posix.visit_summary fs _ content hs hb, ihc _ hb⟩

/-- The POSIX scan of a directory the file system describes as the tree `es`: with
more fuel than the tree has entries it ends, and its result list is the old one
followed by the matches of the tree, in some order. -/
theorem Posix.Execute_found (fs : Posix.FileSystem) (clock : Nat → Int) (fuel : Nat)
    (w : FindGitReposWorker) (es : Entries)
    (hd : Posix.describes fs w.path es = true) (hfuel : es.size < fuel) :
    ∃ w1, Posix.Execute fs clock fuel w = some w1 ∧
      List.Perm w1.repositories (w.repositories ++ es.found Posix.platform w.path) := by
  simp only [Posix.describes, Bool.and_eq_true] at hd
  obtain ⟨hs, hb⟩ := hd
  obtain ⟨w1, h1, hperm⟩ := bfs_found Posix.platform (Posix.visit fs) clock fuel
    [(w.path, es)] w
    (by
      intro it hit
      simp only [List.mem_singleton] at hit
      subst hit
      exact ⟨Posix.visit_summary fs _ es hs hb, Posix.conformsBelow fs es _ hb⟩)
    (by simp only [List.map_cons, List.map_nil, List.sum_cons, List.sum_nil]; omega)
  refine ⟨w1, ?_, by simpa using hperm⟩
  unfold Posix.Execute
  rw [Posix.executeLoop_eq_bfs]
  simpa using h1


/-- Pruning on the tree, from the root: no directory strictly below a listed directory
that holds `.git` is listed. -/
theorem Entries.pruned_visited (pf : Platform) (es : Entries) (path : String)
    (hnd : (((path, es) :: es.descendants pf path).map Prod.fst).Nodup) :
    ∀ D ∈ es.visited pf path, D.2.hasGit pf = true →
    ∀ Q ∈ D.2.descendants pf D.1, Q.1 ∉ (es.visited pf path).map Prod.fst := by
  intro D hD hg Q hQ hmem
  simp only [List.map_cons, List.nodup_cons] at hnd
  obtain ⟨hroot, hnd1⟩ := hnd
  unfold Entries.visited at hD hmem
  simp only [List.mem_cons, List.map_cons] at hD hmem
  rcases hD with hD | hD
  · subst hD
    simp only [hg, if_true, List.map_nil, List.not_mem_nil, or_false] at hmem
    have hQ1 : Q.1 ∈ (es.descendants pf path).map Prod.fst := List.mem_map_of_mem _ hQ
    rw [hmem] at hQ1
    exact hroot hQ1
  · cases hge : es.hasGit pf with
    | true => simp [hge] at hD
    | false =>
      simp only [hge, Bool.false_eq_true, if_false] at hD hmem
      have hDd := Entries.visitedBelow_subset pf es path D hD
      have hQd := Entries.descendants_trans pf es path D hDd Q hQ
      rcases hmem with hmem | hmem
      · have hQ1 : Q.1 ∈ (es.descendants pf path).map Prod.fst := List.mem_map_of_mem _ hQd
        rw [hmem] at hQ1
        exact hroot hQ1
      · exact Entries.pruned pf es path hnd1 D hD hg Q hQ hmem

/-- Completeness on the tree, from the root: a directory of the tree is listed when
no listed directory strictly above it holds `.git`. -/
theorem Entries.reached_visited (pf : Platform) (es : Entries) (path : String)
    (D : String × Entries) (hD : D ∈ (path, es) :: es.descendants pf path)
    (hanc : ∀ A ∈ es.visited pf path, D ∈ A.2.descendants pf A.1 → A.2.hasGit pf = false) :
    D ∈ es.visited pf path := by
  simp only [List.mem_cons] at hD
  rcases hD with hD | hD
  · subst hD
    exact List.mem_cons_self _ _
  · have hge : es.hasGit pf = false :=
      hanc (path, es) (List.mem_cons_self _ _) hD
    have hv : es.visited pf path = (path, es) :: es.visitedBelow pf path := by
      simp [Entries.visited, hge]
    rw [hv] at hanc ⊢
    exact List.mem_cons_of_mem _
      (Entries.reached pf D es path hge hD (fun A hA => hanc A (List.mem_cons_of_mem _ hA)))

theorem String.append_right_cancel {a b c : String} (h : a ++ c = b ++ c) : a = b := by
  have h1 := congrArg String.data h
  simp only [String.data_append] at h1
  exact String.ext (List.append_cancel_right h1)

theorem Posix.mem_gitPaths (m path : String) :
    ∀ es : Entries, m ∈ es.gitPaths "/" (fun kind => kind == .directory) path →
      m = path ++ "/" ++ ".git" := by
  intro es
  induction es with
  | nil => intro h; simp [Entries.gitPaths] at h
  | cons name kind tk content rest _ ihr =>
    intro h
    simp only [Entries.gitPaths, List.mem_append] at h
    rcases h with h | h
    · split_ifs at h with hc
      · simp only [Bool.and_eq_true, beq_iff_eq] at hc
        simp only [List.mem_singleton] at h
        rw [h, hc.2]
      · simp at h
    · exact ihr h

theorem Posix.gitPaths_of_hasGit (path : String) :
    ∀ es : Entries, es.hasGit Posix.platform = true →
      (path ++ "/" ++ ".git") ∈ es.gitPaths "/" (fun kind => kind == .directory) path := by
  intro es
  induction es with
  | nil => intro h; simp [Entries.hasGit] at h
  | cons name kind tk content rest _ ihr =>
    intro h
    simp only [Entries.hasGit, Bool.or_eq_true] at h
    simp only [Entries.gitPaths, List.mem_append]
    rcases h with h | h
    · left
      have h1 : (kind == Kind.directory && name == ".git") = true := h
      simp only [h1, if_true, List.mem_singleton]
      simp only [Bool.and_eq_true, beq_iff_eq] at h1
      rw [h1.2]
    · exact Or.inr (ihr h)

theorem Posix.gitPaths_sublist :
    ∀ (es : Entries) (path : String),
      (es.gitPaths "/" (fun kind => kind == .directory) path).Sublist
        ((es.descendants Posix.platform path).map Prod.fst) := by
  intro es
  induction es with
  | nil => intro path; simp [Entries.gitPaths, Entries.descendants]
  | cons name kind tk content rest _ ihr =>
    intro path
    simp only [Entries.gitPaths, Entries.descendants, List.map_append]
    refine List.Sublist.append ?_ (ihr path)
    have hsep : Posix.platform.sep = "/" := rfl
    have htr : Posix.platform.traversed kind = (kind == Kind.directory) := rfl
    rw [hsep, htr]
    by_cases hk : kind = Kind.directory
    · by_cases hn : name = ".git"
      · simp [hk, hn]
      · simp [hk, hn]
    · simp [hk]

theorem Posix.foundBelow_sublist :
    ∀ (es : Entries) (path : String),
      (es.foundBelow Posix.platform path).Sublist
        ((es.descendants Posix.platform path).map Prod.fst) := by
  intro es
  induction es with
  | nil => intro path; simp [Entries.foundBelow, Entries.descendants]
  | cons name kind tk content rest ihc ihr =>
    intro path
    simp only [Entries.foundBelow, Entries.descendants, List.map_append]
    refine List.Sublist.append ?_ (ihr path)
    cases hk : Posix.platform.traversed kind with
    | false => simp
    | true =>
      cases hn : (name != ".git") with
      | false => simp
      | true =>
        simp only [Bool.and_self, if_true, List.map_cons]
        refine List.Sublist.cons _ ?_
        cases hg : content.hasGit Posix.platform with
        | true =>
          simp only [if_true]
          exact Posix.gitPaths_sublist content _
        | false =>
          simp only [Bool.false_eq_true, if_false]
          exact ihc _

theorem Posix.found_nodup (es : Entries) (path : String)
    (hnd : ((es.descendants Posix.platform path).map Prod.fst).Nodup) :
    (es.found Posix.platform path).Nodup := by
  unfold Entries.found
  split_ifs
  · exact (Posix.gitPaths_sublist es path).nodup hnd
  · exact (Posix.foundBelow_sublist es path).nodup hnd

/-- A match of the POSIX scan of a tree is the path `A/.git` of a listed directory `A`
that holds a `.git` directory, and every such path is a match. -/
theorem Posix.mem_found_git (m : String) (es : Entries) (path : String) :
    m ∈ es.found Posix.platform path ↔
      ∃ A ∈ es.visited Posix.platform path,
        A.2.hasGit Posix.platform = true ∧ m = A.1 ++ "/" ++ ".git" := by
  rw [Entries.mem_found]
  constructor
  · rintro ⟨A, hA, hg, hm⟩
    exact ⟨A, hA, hg, Posix.mem_gitPaths m A.1 A.2 hm⟩
  · rintro ⟨A, hA, hg, hm⟩
    exact ⟨A, hA, hg, hm ▸ Posix.gitPaths_of_hasGit A.1 A.2 hg⟩


/-- The POSIX body never takes a symbolic link for a directory: an entry is taken only
when the listing reports a directory, or reports no type and `uv_fs_lstat` answers
with a directory mode that is not a link mode; so an entry reported as a link, or of
unknown type with a link mode, is neither staged nor recorded. -/
theorem Posix.taken_only_directories (fs : Posix.FileSystem) (currentPath : String)
    (e : Posix.uv_dirent_t) (h : Posix.taken fs currentPath e = true) :
    e.type ≠ .UV_DIRENT_LINK ∧
    (e.type = .UV_DIRENT_DIR ∨
      (e.type = .UV_DIRENT_UNKNOWN ∧
        ∃ st_mode, fs.uv_fs_lstat (currentPath ++ "/" ++ e.name) = some st_mode ∧
          Posix.S_ISDIR st_mode = true ∧ Posix.S_ISLNK st_mode = false)) := by
  unfold Posix.taken at h
  split_ifs at h with hu
  · refine ⟨by rw [hu]; decide, Or.inr ⟨hu, ?_⟩⟩
    cases hl : fs.uv_fs_lstat (currentPath ++ "/" ++ e.name) with
    | none => simp [hl] at h
    | some m =>
      simp only [hl, Bool.and_eq_true, Bool.not_eq_true'] at h
      exact ⟨m, rfl, h.1, h.2⟩
  · have hd : e.type = .UV_DIRENT_DIR := by simpa using h
    exact ⟨by rw [hd]; decide, Or.inl hd⟩


/-! ## Theorems: the Windows body on a tree -/

theorem Win32.findNextFile_eq (h : Win32.WindowsHelpers) (clock : Nat → Int) (wasNtPath : Bool)
    (currentPath : String) :
    ∀ (ds : List Win32.WIN32_FIND_DATAW) (tempPaths : List String) (w : FindGitReposWorker),
      Win32.findNextFile h clock wasNtPath currentPath ds tempPaths w
        = (tempPaths ++ (Win32.scan currentPath ds).1, (Win32.scan currentPath ds).2,
            if (Win32.scan currentPath ds).2 then
              ((Win32.platform h wasNtPath).emit currentPath .nil).foldl
                (FindGitReposWorker.recordMatch clock) w
            else w) := by
  intro ds
  induction ds with
  | nil => intro temp w; simp [Win32.findNextFile, Win32.scan]
  | cons d ds ih =>
    intro temp w
    by_cases hdot : d.cFileName = "." ∨ d.cFileName = ".."
    · have hd : Win32.isDot d = true := by simpa [Win32.isDot] using hdot
      simp only [Win32.findNextFile, Win32.scan, hdot, hd, if_true, ih]
    · have hd : Win32.isDot d = false := by simpa [Win32.isDot] using hdot
      cases hdir : Win32.isDirectory d with
      | false =>
        simp [Win32.findNextFile, Win32.scan, hdot, hd, hdir, ih]
      | true =>
        by_cases hg : d.cFileName = ".git"
        · simp only [Win32.findNextFile, Win32.scan, hdot, hd, hdir, hg, if_true, if_false,
            Bool.not_true, Bool.false_eq_true, Win32.platform, List.append_nil]
          cases h.convertWideCharToMultiByte currentPath wasNtPath <;> simp
        · simp [Win32.findNextFile, Win32.scan, hdot, hd, hdir, hg, ih]

theorem Win32.executeLoop_eq_bfs_win (h : Win32.WindowsHelpers) (fs : Win32.FileSystem)
    (clock : Nat → Int) (wasNtPath : Bool) :
    ∀ (fuel : Nat) (foundPaths : List String) (w : FindGitReposWorker),
      Win32.executeLoop h fs clock wasNtPath fuel foundPaths w
        = bfs (Win32.visit h fs wasNtPath) clock fuel foundPaths w := by
  intro fuel
  induction fuel with
  | zero =>
    intro foundPaths w
    cases foundPaths <;> simp [Win32.executeLoop, bfs]
  | succ fuel ih =>
    intro foundPaths w
    cases foundPaths with
    | nil => simp [Win32.executeLoop, bfs]
    | cons currentPath foundPaths =>
      simp only [Win32.executeLoop, bfs, Win32.visit, Win32.listing]
      cases hs : fs.FindFirstFileW (currentPath ++ "\\*") with
      | none => simp [ih, Win32.scan]
      | some first =>
        obtain ⟨d, ds⟩ := first
        simp only [Win32.findNextFile_eq]
        by_cases hdot : d.cFileName = "." ∨ d.cFileName = ".."
        · have hd : Win32.isDot d = true := by simpa [Win32.isDot] using hdot
          have h1 : ¬ (Win32.isDirectory d = true ∧ "." ≠ d.cFileName ∧ ".." ≠ d.cFileName
              ∧ ".git" = d.cFileName) := by
            rintro ⟨-, h1, h2, -⟩
            rcases hdot with hdot | hdot
            · exact h1 hdot.symm
            · exact h2 hdot.symm
          have h2 : ¬ (Win32.isDirectory d = true ∧ "." ≠ d.cFileName
              ∧ ".." ≠ d.cFileName) := by
            rintro ⟨-, h1, h2⟩
            rcases hdot with hdot | hdot
            · exact h1 hdot.symm
            · exact h2 hdot.symm
          simp only [h1, h2, if_false, Win32.scan, hd, if_true, List.nil_append]
          cases hg : (Win32.scan currentPath ds).2 <;> simp [ih]
        · have hd : Win32.isDot d = false := by simpa [Win32.isDot] using hdot
          have hn1 : "." ≠ d.cFileName := fun e => hdot (Or.inl e.symm)
          have hn2 : ".." ≠ d.cFileName := fun e => hdot (Or.inr e.symm)
          by_cases hdir : Win32.isDirectory d = true
          swap
          · have e1 : ¬ (Win32.isDirectory d = true ∧ "." ≠ d.cFileName
                ∧ ".." ≠ d.cFileName ∧ ".git" = d.cFileName) := fun e => hdir e.1
            have e2 : ¬ (Win32.isDirectory d = true ∧ "." ≠ d.cFileName
                ∧ ".." ≠ d.cFileName) := fun e => hdir e.1
            rw [if_neg e1, if_neg e2]
            have hdir1 : Win32.isDirectory d = false := by simpa using hdir
            simp only [Win32.scan, hd, hdir1, Bool.false_eq_true, if_false,
              Bool.not_false, if_true, List.nil_append]
            cases hg : (Win32.scan currentPath ds).2 <;> simp [ih]
          · by_cases hg : d.cFileName = ".git"
            · have e1 : Win32.isDirectory d = true ∧ "." ≠ d.cFileName ∧ ".." ≠ d.cFileName
                  ∧ ".git" = d.cFileName := ⟨hdir, hn1, hn2, hg.symm⟩
              rw [if_pos e1]
              simp only [Win32.scan, hd, hdir, Bool.not_true, Bool.false_eq_true, if_false,
                if_pos hg, if_true, Win32.platform, List.append_nil]
              cases h.convertWideCharToMultiByte currentPath wasNtPath <;> simp [ih]
            · have e1 : ¬ (Win32.isDirectory d = true ∧ "." ≠ d.cFileName
                  ∧ ".." ≠ d.cFileName ∧ ".git" = d.cFileName) := fun e => hg e.2.2.2.symm
              have e2 : Win32.isDirectory d = true ∧ "." ≠ d.cFileName
                  ∧ ".." ≠ d.cFileName := ⟨hdir, hn1, hn2⟩
              rw [if_neg e1, if_pos e2]
              simp only [Win32.scan, hd, hdir, Bool.not_true, Bool.false_eq_true, if_false,
                if_neg hg]
              cases hs2 : (Win32.scan currentPath ds).2 <;> simp [ih]

theorem Win32.scan_shows (h : Win32.WindowsHelpers) (wasNtPath : Bool) (path : String) :
    ∀ (ds : List Win32.WIN32_FIND_DATAW) (es : Entries), Win32.shows ds es = true →
      (Win32.scan path ds).2 = es.hasGit (Win32.platform h wasNtPath) ∧
      (es.hasGit (Win32.platform h wasNtPath) = false →
        (Win32.scan path ds).1 = (es.children (Win32.platform h wasNtPath) path).map Prod.fst) := by
  intro ds
  induction ds with
  | nil =>
    intro es hs
    cases es with
    | nil => simp [Win32.scan, Entries.hasGit, Entries.children]
    | cons name kind tk content rest => simp [Win32.shows] at hs
  | cons d ds ih =>
    intro es hs
    cases hd : Win32.isDot d with
    | true =>
      simp only [Win32.shows, hd, if_true] at hs
      simp only [Win32.scan, hd, if_true]
      exact ih es hs
    | false =>
      simp only [Win32.shows, hd, Bool.false_eq_true, if_false] at hs
      cases es with
      | nil => simp at hs
      | cons name kind tk content rest =>
        simp only [Bool.and_eq_true, beq_iff_eq] at hs
        obtain ⟨⟨hname, hdir⟩, hrest⟩ := hs
        obtain ⟨ih1, ih2⟩ := ih rest hrest
        have htr : (Win32.platform h wasNtPath).traversed kind = Win32.isDirectory d := by
          rw [hdir]; rfl
        have hsep : (Win32.platform h wasNtPath).sep = "\\" := rfl
        simp only [Win32.scan, hd, Bool.false_eq_true, if_false, Entries.hasGit,
          Entries.children, htr, hsep, ← hname]
        cases hdd : Win32.isDirectory d with
        | false =>
          simp only [Bool.not_false, if_true, Bool.false_and, Bool.false_or,
            Bool.false_eq_true, if_false, List.nil_append]
          exact ⟨ih1, ih2⟩
        | true =>
          by_cases hg : d.cFileName = ".git"
          · simp [hg]
          · simp only [Bool.not_true, Bool.false_eq_true, if_false, hg, Bool.true_and]
            have hb : (d.cFileName == ".git") = false := by simpa using hg
            have hb2 : (d.cFileName != ".git") = true := by simpa using hg
            simp only [hb, hb2, Bool.false_or, if_true, List.map_append, List.map_cons,
              List.map_nil, List.singleton_append]
            refine ⟨ih1, fun hng => ?_⟩
            rw [ih2 hng]

theorem Win32.visit_summary_win (h : Win32.WindowsHelpers) (fs : Win32.FileSystem)
    (wasNtPath : Bool) (path : String) (es : Entries)
    (hs : Win32.shows (Win32.listing fs path) es = true) :
    Win32.visit h fs wasNtPath path = es.summary (Win32.platform h wasNtPath) path := by
  obtain ⟨h1, h2⟩ := Win32.scan_shows h wasNtPath path _ es hs
  unfold Win32.visit Entries.summary
  rw [h1]
  cases hg : es.hasGit (Win32.platform h wasNtPath) with
  | true => rfl
  | false =>
    simp only [Bool.false_eq_true, if_false]
    rw [h2 hg]

theorem Win32.conformsBelow_win (h : Win32.WindowsHelpers) (fs : Win32.FileSystem)
    (wasNtPath : Bool) :
    ∀ (es : Entries) (path : String), Win32.describesBelow fs path es = true →
      es.ConformsBelow (Win32.platform h wasNtPath) (Win32.visit h fs wasNtPath) path := by
  intro es
  induction es with
  | nil => intro path _; trivial
  | cons name kind tk content rest ihc ihr =>
    intro path hd
    simp only [Win32.describesBelow, Bool.and_eq_true, Bool.or_eq_true, beq_iff_eq] at hd
    obtain ⟨hdir, hrest⟩ := hd
    refine ⟨?_, ihr path hrest⟩
    intro htr _
    have hk : kind ≠ .file := by simpa [Win32.platform] using htr
    rcases hdir with hdir | ⟨hs, hb⟩
    · exact absurd hdir hk
    · exact ⟨Win32.visit_summary_win h fs wasNtPath _ content hs, ihc _ hb⟩

/-- The Windows scan of a root the file system describes as the tree `es`: with more
fuel than the tree has entries it ends, and every match it adds is a match of the
tree. -/
theorem Win32.Execute_found_win (h : Win32.WindowsHelpers) (fs : Win32.FileSystem)
    (clock : Nat → Int) (fuel : Nat) (w : FindGitReposWorker) (es : Entries)
    (hd : Win32.describes fs (Win32.rootPath h w.path) es = true) (hfuel : es.size < fuel) :
    ∃ w1, Win32.Execute h fs clock fuel w = some w1 ∧
      ∀ m ∈ w1.repositories, m ∈ w.repositories ∨
        m ∈ es.found (Win32.platform h (h.isNtPath (h.convertMultiByteToWideChar w.path)))
          (Win32.rootPath h w.path) := by
  simp only [Win32.describes, Bool.and_eq_true] at hd
  obtain ⟨hs, hb⟩ := hd
  obtain ⟨w1, h1, hperm⟩ := bfs_found
    (Win32.platform h (h.isNtPath (h.convertMultiByteToWideChar w.path)))
    (Win32.visit h fs (h.isNtPath (h.convertMultiByteToWideChar w.path))) clock fuel
    [(Win32.rootPath h w.path, es)] w
    (by
      intro it hit
      simp only [List.mem_singleton] at hit
      subst hit
      exact ⟨Win32.visit_summary_win h fs _ _ es hs, Win32.conformsBelow_win h fs _ es _ hb⟩)
    (by simp only [List.map_cons, List.map_nil, List.sum_cons, List.sum_nil]; omega)
  simp only [List.map_cons, List.map_nil, List.flatMap_cons, List.flatMap_nil,
    List.append_nil] at h1 hperm
  unfold Win32.Execute
  simp only [Win32.executeLoop_eq_bfs_win]
  cases hnt : h.isNtPath (h.convertMultiByteToWideChar w.path) with
  | true =>
    simp only [hnt, Win32.rootPath, if_true] at h1 hperm
    refine ⟨w1, by simpa using h1, fun m hm => ?_⟩
    simpa [hnt, Win32.rootPath] using List.mem_append.mp (hperm.subset hm)
  | false =>
    simp only [hnt, Win32.rootPath, Bool.false_eq_true, if_false] at h1 hperm
    by_cases he : Win32.popTrailingBackslashes (h.convertMultiByteToWideChar w.path) = ""
    · exact ⟨w, by simp [he], fun m hm => Or.inl hm⟩
    · refine ⟨w1, by simpa [he] using h1, fun m hm => ?_⟩
      simpa [hnt, Win32.rootPath] using List.mem_append.mp (hperm.subset hm)


/-! ## Theorems: pruning and completeness -/

/-- Pruning in the POSIX scan of a tree whose directories have pairwise distinct
paths. -/
theorem Posix.pruning (fs : Posix.FileSystem) (clock : Nat → Int) (root : String) (T : Nat)
    (now : Int) (es : Entries) (fuel : Nat)
    (hd : Posix.describes fs root es = true)
    (hnd : (((root, es) :: es.descendants Posix.platform root).map Prod.fst).Nodup)
    (hfuel : es.size < fuel) :
    ∃ w1, Posix.Execute fs clock fuel (FindGitReposWorker.new root ⟨[]⟩ T now) = some w1 ∧
      ∀ D ∈ (root, es) :: es.descendants Posix.platform root,
        (D.1 ++ "/" ++ ".git") ∈ w1.OnOK →
        ∀ Q ∈ D.2.descendants Posix.platform D.1, (Q.1 ++ "/" ++ ".git") ∉ w1.OnOK := by
  obtain ⟨w1, h1, hperm⟩ := Posix.Execute_found fs clock fuel
    (FindGitReposWorker.new root ⟨[]⟩ T now) es hd hfuel
  refine ⟨w1, h1, ?_⟩
  have hmem : ∀ m, m ∈ w1.OnOK → m ∈ es.found Posix.platform root := by
    intro m hm
    rw [OnOK_eq] at hm
    simpa [FindGitReposWorker.new] using hperm.subset hm
  intro D hD hDm Q hQ hQm
  obtain ⟨A, hA, hgA, hmA⟩ := (Posix.mem_found_git _ es root).mp (hmem _ hDm)
  obtain ⟨B, hB, -, hmB⟩ := (Posix.mem_found_git _ es root).mp (hmem _ hQm)
  have hAD : A = D := eq_of_fst_eq hnd (Entries.visited_subset _ es root A hA) hD
    (String.append_right_cancel (String.append_right_cancel hmA)).symm
  have hBQ : B.1 = Q.1 := (String.append_right_cancel (String.append_right_cancel hmB)).symm
  subst hAD
  exact Entries.pruned_visited Posix.platform es root hnd A hA hgA Q hQ
    (hBQ ▸ List.mem_map_of_mem _ hB)

/-- Two elements of a list are equal when a partial function sends them to the same
value and its values on the list are pairwise distinct. -/
theorem eq_of_filterMap_nodup {α β : Type} (f : α → Option β) :
    ∀ (l : List α), (l.filterMap f).Nodup →
      ∀ (a b : α) (s : β), a ∈ l → b ∈ l → f a = some s → f b = some s → a = b := by
  intro l
  induction l with
  | nil => intro _ a b s ha; simp at ha
  | cons x xs ih =>
    intro hnd a b s ha hb hfa hfb
    simp only [List.mem_cons] at ha hb
    cases hx : f x with
    | none =>
      rw [List.filterMap_cons_none hx] at hnd
      rcases ha with ha | ha
      · subst ha; rw [hx] at hfa; cases hfa
      · rcases hb with hb | hb
        · subst hb; rw [hx] at hfb; cases hfb
        · exact ih hnd a b s ha hb hfa hfb
    | some y =>
      rw [List.filterMap_cons_some hx, List.nodup_cons] at hnd
      have key : ∀ c, c ∈ xs → f c = some y → False := fun c hc hfc =>
        hnd.1 (List.mem_filterMap.mpr ⟨c, hc, hfc⟩)
      rcases ha with ha | ha <;> rcases hb with hb | hb
      · rw [ha, hb]
      · subst ha
        rw [hx] at hfa
        exact (key b hb (hfb.trans hfa.symm)).elim
      · subst hb
        rw [hx] at hfb
        exact (key a ha (hfa.trans hfb.symm)).elim
      · exact ih hnd.2 a b s ha hb hfa hfb

/-- Pruning in the Windows scan of a tree whose directories have pairwise distinct
paths and pairwise distinct converted paths. -/
theorem Win32.pruning_win (h : Win32.WindowsHelpers) (fs : Win32.FileSystem) (clock : Nat → Int)
    (root : String) (T : Nat) (now : Int) (es : Entries) (fuel : Nat)
    (hd : Win32.describes fs (Win32.rootPath h root) es = true)
    (hnd : (((Win32.rootPath h root, es) ::
      es.descendants (Win32.platform h (h.isNtPath (h.convertMultiByteToWideChar root)))
        (Win32.rootPath h root)).map Prod.fst).Nodup)
    (hinj : (((Win32.rootPath h root, es) ::
      es.descendants (Win32.platform h (h.isNtPath (h.convertMultiByteToWideChar root)))
        (Win32.rootPath h root)).filterMap
          (fun D => h.convertWideCharToMultiByte D.1
            (h.isNtPath (h.convertMultiByteToWideChar root)))).Nodup)
    (hfuel : es.size < fuel) :
    ∃ w1, Win32.Execute h fs clock fuel (FindGitReposWorker.new root ⟨[]⟩ T now) = some w1 ∧
      ∀ D ∈ (Win32.rootPath h root, es) ::
          es.descendants (Win32.platform h (h.isNtPath (h.convertMultiByteToWideChar root)))
            (Win32.rootPath h root),
        ∀ repoPath, h.convertWideCharToMultiByte D.1
            (h.isNtPath (h.convertMultiByteToWideChar root)) = some repoPath →
        (repoPath ++ "\\.git") ∈ w1.OnOK →
        ∀ Q ∈ D.2.descendants
            (Win32.platform h (h.isNtPath (h.convertMultiByteToWideChar root))) D.1,
          ∀ below, h.convertWideCharToMultiByte Q.1
              (h.isNtPath (h.convertMultiByteToWideChar root)) = some below →
          (below ++ "\\.git") ∉ w1.OnOK := by
  obtain ⟨w1, h1, hsub⟩ := Win32.Execute_found_win h fs clock fuel
    (FindGitReposWorker.new root ⟨[]⟩ T now) es hd hfuel
  refine ⟨w1, h1, ?_⟩
  have hpath : (FindGitReposWorker.new root ⟨[]⟩ T now).path = root := rfl
  rw [hpath] at hsub
  clear h1 hd
  generalize h.isNtPath (h.convertMultiByteToWideChar root) = wasNtPath at *
  generalize Win32.rootPath h root = R at *
  have hmem : ∀ m, m ∈ w1.OnOK →
      ∃ A ∈ es.visited (Win32.platform h wasNtPath) R,
        A.2.hasGit (Win32.platform h wasNtPath) = true ∧
        ∃ s, h.convertWideCharToMultiByte A.1 wasNtPath = some s ∧ m = s ++ "\\.git" := by
    intro m hm
    rw [OnOK_eq] at hm
    rcases hsub m hm with h0 | h0
    · simp [FindGitReposWorker.new] at h0
    · obtain ⟨A, hA, hg, hm⟩ := (Entries.mem_found _ m es R).mp h0
      refine ⟨A, hA, hg, ?_⟩
      simp only [Win32.platform] at hm
      cases hc : h.convertWideCharToMultiByte A.1 wasNtPath with
      | none => simp [hc] at hm
      | some s =>
        simp only [hc, List.mem_singleton] at hm
        exact ⟨s, rfl, hm⟩
  intro D hD sD hsD hDm Q hQ sQ hsQ hQm
  obtain ⟨A, hA, hgA, sA, hsA, hmA⟩ := hmem _ hDm
  obtain ⟨B, hB, -, sB, hsB, hmB⟩ := hmem _ hQm
  have hAall := Entries.visited_subset _ es R A hA
  have hBall := Entries.visited_subset _ es R B hB
  have hQall : Q ∈ (R, es) :: es.descendants (Win32.platform h wasNtPath) R := by
    simp only [List.mem_cons] at hD ⊢
    rcases hD with hD | hD
    · subst hD; exact Or.inr hQ
    · exact Or.inr (Entries.descendants_trans _ es R D hD Q hQ)
  have e1 : sA = sD := (String.append_right_cancel hmA).symm
  have e2 : sB = sQ := (String.append_right_cancel hmB).symm
  have hAD : A = D := eq_of_filterMap_nodup _ _ hinj A D sD hAall hD (e1 ▸ hsA) hsD
  have hBQ : B = Q := eq_of_filterMap_nodup _ _ hinj B Q sQ hBall hQall (e2 ▸ hsB) hsQ
  subst hAD hBQ
  exact Entries.pruned_visited _ es R hnd A hA hgA B hQ (List.mem_map_of_mem _ hB)


theorem Posix.recorded_ne_nil (fs : Posix.FileSystem) (currentPath : String) :
    ∀ (entries : List Posix.uv_dirent_t),
      (∃ e ∈ entries, Posix.taken fs currentPath e = true ∧ e.name = ".git") →
      Posix.recorded fs currentPath entries ≠ [] := by
  intro entries
  induction entries with
  | nil => rintro ⟨e, he, -⟩; simp at he
  | cons x xs ih =>
    rintro ⟨e, he, ht, hn⟩
    simp only [List.mem_cons] at he
    simp only [Posix.recorded]
    rcases he with he | he
    · subst he
      simp [ht, hn]
    · intro hnil
      exact ih ⟨e, he, ht, hn⟩ (List.append_eq_nil.mp hnil).2

/-- One pass of the POSIX outer loop over a directory in which some entry taken for a
directory is named `.git` appends nothing to the worklist. -/
theorem Posix.pruned_step (fs : Posix.FileSystem) (clock : Nat → Int) (fuel : Nat)
    (currentPath : String) (foundPaths : List String) (w : FindGitReposWorker)
    (entries : List Posix.uv_dirent_t)
    (hs : fs.uv_fs_scandir (currentPath ++ "/") = some entries)
    (hg : ∃ e ∈ entries, Posix.taken fs currentPath e = true ∧ e.name = ".git") :
    Posix.executeLoop fs clock (fuel + 1) (currentPath :: foundPaths) w
      = Posix.executeLoop fs clock fuel foundPaths
          ((Posix.recorded fs currentPath entries).foldl
            (FindGitReposWorker.recordMatch clock) w) := by
  have hne := Posix.recorded_ne_nil fs currentPath entries hg
  have he : (Posix.recorded fs currentPath entries).isEmpty = false := by
    cases hr : Posix.recorded fs currentPath entries with
    | nil => exact absurd hr hne
    | cons _ _ => rfl
  simp only [Posix.executeLoop, hs, Posix.scandirNext_eq, he, Bool.not_false, Bool.or_true,
    Bool.not_true, Bool.false_eq_true, if_false]

theorem Win32.scan_git (currentPath : String) :
    ∀ (ds : List Win32.WIN32_FIND_DATAW),
      (∃ d ∈ ds, Win32.isDot d = false ∧ Win32.isDirectory d = true ∧ d.cFileName = ".git") →
      (Win32.scan currentPath ds).2 = true := by
  intro ds
  induction ds with
  | nil => rintro ⟨d, hd, -⟩; simp at hd
  | cons x xs ih =>
    rintro ⟨d, hd, h1, h2, h3⟩
    simp only [List.mem_cons] at hd
    simp only [Win32.scan]
    rcases hd with hd | hd
    · subst hd
      simp [h1, h2, h3]
    · have := ih ⟨d, hd, h1, h2, h3⟩
      split_ifs <;> simp [this]

/-- One pass of the Windows outer loop over a directory in which some entry with the
directory attribute is named `.git` appends nothing to the worklist. -/
theorem Win32.pruned_step_win (h : Win32.WindowsHelpers) (fs : Win32.FileSystem)
    (clock : Nat → Int) (wasNtPath : Bool) (fuel : Nat) (currentPath : String)
    (foundPaths : List String) (w : FindGitReposWorker)
    (hg : ∃ d ∈ Win32.listing fs currentPath,
      Win32.isDot d = false ∧ Win32.isDirectory d = true ∧ d.cFileName = ".git") :
    Win32.executeLoop h fs clock wasNtPath (fuel + 1) (currentPath :: foundPaths) w
      = Win32.executeLoop h fs clock wasNtPath fuel foundPaths
          (((Win32.platform h wasNtPath).emit currentPath .nil).foldl
            (FindGitReposWorker.recordMatch clock) w) := by
  have hs := Win32.scan_git currentPath _ hg
  rw [Win32.executeLoop_eq_bfs_win, Win32.executeLoop_eq_bfs_win]
  simp only [bfs, Win32.visit, hs, if_true, List.append_nil]

/-- C1 (pruning): for every finite directory tree `es` at `root` whose directories
have pairwise distinct paths, on both platforms the scan ends and, for every
directory `D` of the tree whose `.git` match is in the resolved list, the list holds
no match of any directory strictly below `D`, whatever lies there.  And one pass of
either outer loop over a directory holding a `.git` directory leaves the worklist
as it was without that directory: no child is appended. -/
theorem C1_pruning (clock : Nat → Int) (T : Nat) (now : Int)
    (fs : Posix.FileSystem) (root : String) (es : Entries) (fuel : Nat)
    (hd : Posix.describes fs root es = true)
    (hnd : (((root, es) :: es.descendants Posix.platform root).map Prod.fst).Nodup)
    (hfuel : es.size < fuel)
    (h : Win32.WindowsHelpers) (wfs : Win32.FileSystem) (wroot : String) (wes : Entries)
    (wfuel : Nat)
    (hwd : Win32.describes wfs (Win32.rootPath h wroot) wes = true)
    (hwnd : (((Win32.rootPath h wroot, wes) ::
      wes.descendants (Win32.platform h (h.isNtPath (h.convertMultiByteToWideChar wroot)))
        (Win32.rootPath h wroot)).map Prod.fst).Nodup)
    (hwinj : (((Win32.rootPath h wroot, wes) ::
      wes.descendants (Win32.platform h (h.isNtPath (h.convertMultiByteToWideChar wroot)))
        (Win32.rootPath h wroot)).filterMap
          (fun D => h.convertWideCharToMultiByte D.1
            (h.isNtPath (h.convertMultiByteToWideChar wroot)))).Nodup)
    (hwfuel : wes.size < wfuel) :
    (∃ w1, Posix.Execute fs clock fuel (FindGitReposWorker.new root ⟨[]⟩ T now) = some w1 ∧
      ∀ D ∈ (root, es) :: es.descendants Posix.platform root,
        (D.1 ++ "/" ++ ".git") ∈ w1.OnOK →
        ∀ Q ∈ D.2.descendants Posix.platform D.1, (Q.1 ++ "/" ++ ".git") ∉ w1.OnOK) ∧
    (∃ w1, Win32.Execute h wfs clock wfuel (FindGitReposWorker.new wroot ⟨[]⟩ T now) = some w1 ∧
      ∀ D ∈ (Win32.rootPath h wroot, wes) ::
          wes.descendants (Win32.platform h (h.isNtPath (h.convertMultiByteToWideChar wroot)))
            (Win32.rootPath h wroot),
        ∀ repoPath, h.convertWideCharToMultiByte D.1
            (h.isNtPath (h.convertMultiByteToWideChar wroot)) = some repoPath →
        (repoPath ++ "\\.git") ∈ w1.OnOK →
        ∀ Q ∈ D.2.descendants
            (Win32.platform h (h.isNtPath (h.convertMultiByteToWideChar wroot))) D.1,
          ∀ below, h.convertWideCharToMultiByte Q.1
              (h.isNtPath (h.convertMultiByteToWideChar wroot)) = some below →
          (below ++ "\\.git") ∉ w1.OnOK) ∧
    (∀ (n : Nat) (currentPath : String) (foundPaths : List String) (w : FindGitReposWorker)
        (entries : List Posix.uv_dirent_t),
      fs.uv_fs_scandir (currentPath ++ "/") = some entries →
      (∃ e ∈ entries, Posix.taken fs currentPath e = true ∧ e.name = ".git") →
      Posix.executeLoop fs clock (n + 1) (currentPath :: foundPaths) w
        = Posix.executeLoop fs clock n foundPaths
            ((Posix.recorded fs currentPath entries).foldl
              (FindGitReposWorker.recordMatch clock) w)) ∧
    (∀ (wasNtPath : Bool) (n : Nat) (currentPath : String) (foundPaths : List String)
        (w : FindGitReposWorker),
      (∃ d ∈ Win32.listing wfs currentPath,
        Win32.isDot d = false ∧ Win32.isDirectory d = true ∧ d.cFileName = ".git") →
      Win32.executeLoop h wfs clock wasNtPath (n + 1) (currentPath :: foundPaths) w
        = Win32.executeLoop h wfs clock wasNtPath n foundPaths
            (((Win32.platform h wasNtPath).emit currentPath .nil).foldl
              (FindGitReposWorker.recordMatch clock) w)) :=
  ⟨Posix.pruning fs clock root T now es fuel hd hnd hfuel,
   Win32.pruning_win h wfs clock wroot T now wes wfuel hwd hwnd hwinj hwfuel,
   fun n cur rest w entries hs hg => Posix.pruned_step fs clock n cur rest w entries hs hg,
   fun wasNt n cur rest w hg => Win32.pruned_step_win h wfs clock wasNt n cur rest w hg⟩


/-- The scenario `/root/x/.git/y/.git` on both platforms: the resolved list is exactly
the outer match, and C1 applies to the tree. -/
theorem C1_pruning_witness :
    (Posix.Execute Posix.nested (fun _ => 0) 5
        (FindGitReposWorker.new "/root" ⟨[]⟩ 0 0)).map (fun w => w.OnOK)
      = some ["/root/x/.git"] ∧
    (Win32.Execute Win32.plainHelpers Win32.nested (fun _ => 0) 5
        (FindGitReposWorker.new "C:\\root" ⟨[]⟩ 0 0)).map (fun w => w.OnOK)
      = some ["C:\\root\\x\\.git"] ∧
    (∃ w1, Posix.Execute Posix.nested (fun _ => 0) 5
        (FindGitReposWorker.new "/root" ⟨[]⟩ 0 0) = some w1 ∧
      ∀ D ∈ ("/root", nestedTree) :: nestedTree.descendants Posix.platform "/root",
        (D.1 ++ "/" ++ ".git") ∈ w1.OnOK →
        ∀ Q ∈ D.2.descendants Posix.platform D.1, (Q.1 ++ "/" ++ ".git") ∉ w1.OnOK) :=
  ⟨by decide, by decide,
   (C1_pruning (fun _ => 0) 0 0 Posix.nested "/root" nestedTree 5 (by decide) (by decide)
      (by decide) Win32.plainHelpers Win32.nested "C:\\root" nestedTree 5 (by decide)
      (by decide) (by decide) (by decide)).1⟩


/-- C2, the claim as stated fails: in the tree `/root/a/.git` where `.git` is a regular
file, the directory `/root/a` holds an immediate entry named `.git` and lies under no
matched directory, yet the resolved list is empty, whether the listing reports the
type of the file or `uv_fs_lstat` is asked: `/root/a/.git` occurs 0 times, not once. -/
theorem C2_counterexample :
    (Posix.Execute (Posix.gitFile true) (fun _ => 0) 3
        (FindGitReposWorker.new "/root" ⟨[]⟩ 0 0)).map (fun w => w.OnOK) = some [] ∧
    (Posix.Execute (Posix.gitFile false) (fun _ => 0) 3
        (FindGitReposWorker.new "/root" ⟨[]⟩ 0 0)).map (fun w => w.OnOK) = some [] ∧
    Posix.describes (Posix.gitFile true) "/root"
        (.cons "a" .directory true (.cons ".git" .file true .nil .nil) .nil) = true ∧
    ([] : List String).count "/root/a/.git" ≠ 1 := by
  refine ⟨by decide, by decide, by decide, by decide⟩

/-- C2, amended: for every finite directory tree `es` scanned from `root` whose
directories have pairwise distinct paths, the POSIX scan ends, and every directory
`D` of the tree that holds an immediate directory named `.git` (an entry the body
takes for a directory, not a regular file or a symbolic link) and lies under no
directory whose match is in the resolved list has its path `D/.git` in the resolved
list exactly once; and every path in the resolved list is `D/.git` for such a
directory `D` of the tree. -/
theorem C2_completeness (fs : Posix.FileSystem) (clock : Nat → Int) (root : String) (T : Nat)
    (now : Int) (es : Entries) (fuel : Nat)
    (hd : Posix.describes fs root es = true)
    (hnd : (((root, es) :: es.descendants Posix.platform root).map Prod.fst).Nodup)
    (hfuel : es.size < fuel) :
    ∃ w1, Posix.Execute fs clock fuel (FindGitReposWorker.new root ⟨[]⟩ T now) = some w1 ∧
      (∀ D ∈ (root, es) :: es.descendants Posix.platform root,
        D.2.hasGit Posix.platform = true →
        (∀ A ∈ (root, es) :: es.descendants Posix.platform root,
          D ∈ A.2.descendants Posix.platform A.1 → (A.1 ++ "/" ++ ".git") ∉ w1.OnOK) →
        w1.OnOK.count (D.1 ++ "/" ++ ".git") = 1) ∧
      (∀ m ∈ w1.OnOK, ∃ D ∈ (root, es) :: es.descendants Posix.platform root,
        D.2.hasGit Posix.platform = true ∧ m = D.1 ++ "/" ++ ".git") := by
  obtain ⟨w1, h1, hperm⟩ := Posix.Execute_found fs clock fuel
    (FindGitReposWorker.new root ⟨[]⟩ T now) es hd hfuel
  have hperm1 : List.Perm w1.OnOK (es.found Posix.platform root) := by
    rw [OnOK_eq]
    simpa [FindGitReposWorker.new] using hperm
  have hnd1 : ((es.descendants Posix.platform root).map Prod.fst).Nodup := by
    simp only [List.map_cons, List.nodup_cons] at hnd
    exact hnd.2
  have hnodup : w1.OnOK.Nodup := hperm1.nodup_iff.mpr (Posix.found_nodup es root hnd1)
  refine ⟨w1, h1, ?_, ?_⟩
  · intro D hD hg hmax
    have hvis : D ∈ es.visited Posix.platform root := by
      apply Entries.reached_visited Posix.platform es root D hD
      intro A hA hDA
      by_contra hgA
      have hgA1 : A.2.hasGit Posix.platform = true := by simpa using hgA
      have hm : (A.1 ++ "/" ++ ".git") ∈ es.found Posix.platform root :=
        (Posix.mem_found_git _ es root).mpr ⟨A, hA, hgA1, rfl⟩
      exact hmax A (Entries.visited_subset _ es root A hA) hDA (hperm1.symm.subset hm)
    have hm : (D.1 ++ "/" ++ ".git") ∈ w1.OnOK :=
      hperm1.symm.subset ((Posix.mem_found_git _ es root).mpr ⟨D, hvis, hg, rfl⟩)
    exact List.count_eq_one_of_mem hnodup hm
  · intro m hm
    obtain ⟨A, hA, hgA, hmA⟩ := (Posix.mem_found_git _ es root).mp (hperm1.subset hm)
    exact ⟨A, Entries.visited_subset _ es root A hA, hgA, hmA⟩

/-- The scenario `/root/{a/.git, b/c/.git, d/}`: the resolved list is exactly the two
matches, in breadth-first order, and C2 applies to the tree. -/
theorem C2_completeness_witness :
    (Posix.Execute Posix.three (fun _ => 0) 7
        (FindGitReposWorker.new "/root" ⟨[]⟩ 0 0)).map (fun w => w.OnOK)
      = some ["/root/a/.git", "/root/b/c/.git"] ∧
    (∃ w1, Posix.Execute Posix.three (fun _ => 0) 7
        (FindGitReposWorker.new "/root" ⟨[]⟩ 0 0) = some w1 ∧
      (∀ D ∈ ("/root", threeTree) :: threeTree.descendants Posix.platform "/root",
        D.2.hasGit Posix.platform = true →
        (∀ A ∈ ("/root", threeTree) :: threeTree.descendants Posix.platform "/root",
          D ∈ A.2.descendants Posix.platform A.1 → (A.1 ++ "/" ++ ".git") ∉ w1.OnOK) →
        w1.OnOK.count (D.1 ++ "/" ++ ".git") = 1) ∧
      (∀ m ∈ w1.OnOK, ∃ D ∈ ("/root", threeTree) :: threeTree.descendants Posix.platform "/root",
        D.2.hasGit Posix.platform = true ∧ m = D.1 ++ "/" ++ ".git")) :=
  ⟨by decide,
   C2_completeness Posix.three (fun _ => 0) "/root" 0 0 threeTree 7 (by decide) (by decide)
     (by decide)⟩


end FindGitRepositories
